import Mathlib

/-!
Verification of the PDF-to-Word text-cleaning pipeline
(`pdf_to_word_clean.py`): a shallow embedding of the block extractor
`extract_text_without_footnotes`, the normalizer `clean_text` and the
paragraph writer `create_word_document`, together with theorems about the
behaviour of each.

Modelling conventions:
* Strings are modelled as `List Char`; `String` wrappers are provided.
* Python floats (page coordinates, font sizes, the literals `0.10`,
  `0.85`) are modelled as rationals.
* `str.isdigit` is modelled on the character sets relevant here: ASCII
  decimal digits plus the Unicode superscript digits (both satisfy
  Python's `str.isdigit`).
* The regex class `\d` (Unicode category Nd) is modelled as ASCII
  digits; no other Nd character appears in the inputs considered.
* Python whitespace (`str.strip`, regex `\s`) is modelled by the ASCII
  whitespace characters `' '`, `\t`, `\n`, `\r`, `\x0b`, `\x0c`.
* `re.sub` is modelled by a fueled left-to-right scanner `sub` that, at
  each position, either applies the (faithfully translated) matcher of
  the pattern — emitting the replacement and resuming after the match —
  or copies one character.  Every pattern in the source consumes at
  least one character, so fuel `l.length` always suffices.
-/

/-- The ten Unicode superscript digit glyphs removed by `clean_text`
(line 104 of the source). -/
def superscriptDigits : List Char := ['⁰', '¹', '²', '³', '⁴', '⁵', '⁶', '⁷', '⁸', '⁹']

/-- Python whitespace (ASCII part): the characters stripped by
`str.strip()` and matched by the regex class `\s`. -/
def isPyWS (c : Char) : Bool :=
  c = ' ' || c = '\t' || c = '\n' || c = '\r' || c = '\x0b' || c = '\x0c'

/-- A character counted as a digit by Python's `str.isdigit` (restricted
to the character sets appearing in this development: ASCII decimal
digits and the superscript glyphs). -/
def pyIsdigitChar (c : Char) : Bool :=
  c.isDigit || superscriptDigits.contains c

/-- Python's `str.isdigit`: non-empty and every character a digit. -/
def pyIsdigit (l : List Char) : Bool :=
  !l.isEmpty && l.all pyIsdigitChar

/-- Python's `str.strip()`: remove leading and trailing whitespace. -/
def pyStrip (l : List Char) : List Char :=
  ((l.dropWhile isPyWS).reverse.dropWhile isPyWS).reverse

/-- Lower-casing covering the alphabet used by the source's regexes:
ASCII letters and the accented Hungarian vowels.  This models the
effect of `re.IGNORECASE` on those patterns. -/
def hunToLower (c : Char) : Char :=
  if c = 'Á' then 'á' else if c = 'É' then 'é' else if c = 'Í' then 'í'
  else if c = 'Ó' then 'ó' else if c = 'Ö' then 'ö' else if c = 'Ő' then 'ő'
  else if c = 'Ú' then 'ú' else if c = 'Ü' then 'ü' else if c = 'Ű' then 'ű'
  else c.toLower

/-- Membership in the character class `[a-záéíóöőúüű]` without
`re.IGNORECASE`: lowercase letters only. -/
def hunLowercase (c : Char) : Bool :=
  ('a' ≤ c && c ≤ 'z') ||
    (c = 'á' || c = 'é' || c = 'í' || c = 'ó' || c = 'ö' || c = 'ő' ||
     c = 'ú' || c = 'ü' || c = 'ű')

/-- Membership in the character class `[a-záéíóöőúüű]` under
`re.IGNORECASE` (as in rules 4 and 5 of `clean_text`): either case
matches. -/
def hunLetterCI (c : Char) : Bool :=
  hunLowercase (hunToLower c)

/-- Case-insensitive character comparison against a lowercase pattern
character, as performed by `re.IGNORECASE` on the literal parts of the
source's patterns. -/
def ciEq (pat c : Char) : Bool :=
  hunToLower c = pat

/-! ## The block extractor (`extract_text_without_footnotes`) -/

/-- A text span as yielded by the page-content source: text, font size
and style flags (source lines 60-63). -/
structure Span where
  text : List Char
  size : ℚ
  flags : Nat

/-- A line: an ordered list of spans. -/
structure Line where
  spans : List Span

/-- A block: bounding-box top coordinate and, when the block carries
text (the `"lines" in block` check, source line 40), its lines. -/
structure Block where
  yTop : ℚ
  lines? : Option (List Line)

/-- A page: height plus its blocks. -/
structure Page where
  height : ℚ
  blocks : List Block

/-- The superscript-noise test of source lines 66-70:
`font_size < 8 or (flags & 1) or (text.strip().isdigit() and font_size < 10)`. -/
def isSuperscriptSpan (sp : Span) : Bool :=
  decide (sp.size < 8) || sp.flags % 2 == 1 ||
    (pyIsdigit (pyStrip sp.text) && decide (sp.size < 10))

/-- The skip condition of source line 72:
`if is_superscript and text.strip().isdigit(): continue`. -/
def spanSkip (sp : Span) : Bool :=
  isSuperscriptSpan sp && pyIsdigit (pyStrip sp.text)

/-- Line assembly (source lines 57-75): concatenate the texts of the
spans that are not skipped. -/
def lineText (ln : Line) : List Char :=
  ln.spans.foldl (fun acc sp => if spanSkip sp then acc else acc ++ sp.text) []

/-- Line filtering (source lines 77-84): strip the assembled text, drop
digit-only lines of length at most three (page numbers) and empty
lines; otherwise keep the stripped text. -/
def lineOut (ln : Line) : Option (List Char) :=
  let st := pyStrip (lineText ln)
  if pyIsdigit st && decide (st.length ≤ 3) then none
  else if st.isEmpty then none
  else some st

/-- Join a list of non-empty pieces with a separator (`sep.join`). -/
def joinSep (sep : List Char) : List (List Char) → List Char
  | [] => []
  | [p] => p
  | p :: ps => p ++ sep ++ joinSep sep ps

/-- Text contributed by one block (source lines 39-89): `none` when the
block has no `"lines"` key, falls in the header region
(`block_y_top < page_height * 0.10`), falls in the footer region
(`block_y_top > page_height * 0.85`) or retains no line; otherwise the
surviving lines joined by single spaces. -/
def blockText (pageHeight : ℚ) (b : Block) : Option (List Char) :=
  match b.lines? with
  | none => none
  | some lns =>
    if b.yTop < pageHeight * (1/10) then none
    else if b.yTop > pageHeight * (17/20) then none
    else
      let ts := lns.filterMap lineOut
      if ts.isEmpty then none else some (joinSep [' '] ts)

/-- The extractor over a whole document: block texts of all pages in
order, joined by double line-breaks (source lines 35-94). -/
def extract_text_without_footnotes (pages : List Page) : List Char :=
  joinSep ['\n', '\n'] (pages.flatMap fun p => p.blocks.filterMap (blockText p.height))

/-! ## Generic `re.sub` scanner -/

/-- One `re.sub` pass: scan left to right; where the matcher fires,
emit the replacement and resume after the matched region, otherwise
copy one character.  Fuel bounds the number of steps; every matcher
used here consumes at least one character, so fuel `l.length` is
exact. -/
def sub (m : List Char → Option (List Char × List Char)) : Nat → List Char → List Char
  | 0, l => l
  | _ + 1, [] => []
  | n + 1, c :: t =>
    match m (c :: t) with
    | some (rep, rest) => rep ++ sub m n rest
    | none => c :: sub m n t

/-- `re.sub` with fuel set to the length of the input. -/
def subL (m : List Char → Option (List Char × List Char)) (l : List Char) : List Char :=
  sub m l.length l

/-- Case-insensitive literal prefix match: if `l` starts with `pat`
(compared via `ciEq`), return the remainder. -/
def ciMatchPfx (pat : List Char) (l : List Char) : Option (List Char) :=
  match pat, l with
  | [], l => some l
  | _ :: _, [] => none
  | p :: ps, c :: cs => if ciEq p c then ciMatchPfx ps cs else none

/-- The optional group `(?:\.[^\n]*)?` of rules 2 and 3: if at a `.`,
consume it and the rest of the line. -/
def eolOpt : List Char → List Char
  | c :: r => if c = '.' then r.dropWhile (fun c => c ≠ '\n') else c :: r
  | [] => []

/-- The lookahead `(?=\n|$)` of rules 2 and 3 (the position is kept). -/
def eolLook : List Char → Option (List Char)
  | [] => some []
  | c :: r => if c = '\n' then some (c :: r) else none

/-- The tail `[^\n.]*(?:\.[^\n]*)?(?=\n|$)` shared by rules 2 and 3:
greedily consume to the first `.` or line break; if at a `.`, consume
it and the rest of the line; the lookahead then requires a line break
or end of input. -/
def eolTail (l : List Char) : Option (List Char) :=
  eolLook (eolOpt (l.dropWhile (fun c => c ≠ '\n' && c ≠ '.')))

/-- Matcher for a family of patterns `marker[^\n.]*(?:\.[^\n]*)?(?=\n|$)`
with case-insensitive markers (each marker includes its colon), tried
in the alternation order of the pattern. -/
def markerMatch (markers : List (List Char)) (l : List Char) :
    Option (List Char × List Char) :=
  match markers with
  | [] => none
  | mk :: mks =>
    match ciMatchPfx mk l with
    | some r =>
      match eolTail r with
      | some rest => some ([], rest)
      | none => markerMatch mks l
    | none => markerMatch mks l

/-- The marker of rule 2 (source line 111): `Lásd:`. -/
def lasdMarkers : List (List Char) := [['l', 'á', 's', 'd', ':']]

/-- The markers of rule 3 (source line 119): the amendment-note words,
in the alternation order of the pattern, each with its colon. -/
def modMarkers : List (List Char) :=
  [ "megállapította:".data
  , "hatályos:".data
  , "beiktatta:".data
  , "módosította:".data
  , "hatályon kívül helyezte:".data ]

/-- `[IVX]` under `re.IGNORECASE`. -/
def isIVX (c : Char) : Bool :=
  let l := hunToLower c
  l = 'i' || l = 'v' || l = 'x'

/-- Matcher for rule 4 (source line 128):
`\(\d{4}\.\s*[IVX]+\.\s*\d+-[a-zéáíóöőúüű]+\.\)` with `re.IGNORECASE`.
Adjacent greedy pieces draw from disjoint character sets, so maximal
munch coincides with the regex's backtracking search. -/
def dateParenMatch (l : List Char) : Option (List Char × List Char) :=
  match l with
  | c0 :: r =>
    if c0 = '(' then
      let d4 := r.take 4
      if d4.length = 4 && d4.all Char.isDigit then
        match r.drop 4 with
        | c1 :: r2 =>
          if c1 = '.' then
            let r3 := (r2.dropWhile isPyWS).dropWhile isIVX
            if ((r2.dropWhile isPyWS).takeWhile isIVX).isEmpty then none
            else
              match r3 with
              | c2 :: r4 =>
                if c2 = '.' then
                  let r5 := (r4.dropWhile isPyWS).dropWhile Char.isDigit
                  if ((r4.dropWhile isPyWS).takeWhile Char.isDigit).isEmpty then none
                  else
                    match r5 with
                    | c3 :: r6 =>
                      if c3 = '-' then
                        if (r6.takeWhile hunLetterCI).isEmpty then none
                        else
                          match r6.dropWhile hunLetterCI with
                          | c4 :: c5 :: r7 =>
                            if c4 = '.' && c5 = ')' then some ([], r7) else none
                          | _ => none
                      else none
                    | [] => none
                else none
              | [] => none
          else none
        | [] => none
      else none
    else none
  | [] => none

/-! ## Rule 5: `(?<=[a-záéíóöőúüű])(\d{1,3})(?=\s|[.,;:!?)]|$)` -/

/-- The lookahead of rule 5: whitespace, a closing punctuation
character, or end of input. -/
def look5 (l : List Char) : Bool :=
  match l with
  | [] => true
  | c :: _ =>
    isPyWS c || c = '.' || c = ',' || c = ';' || c = ':' ||
      c = '!' || c = '?' || c = ')'

/-- Try to match exactly `k` digits followed by the rule-5 lookahead. -/
def take5 (k : Nat) (l : List Char) : Option (List Char × List Char) :=
  let ds := l.take k
  if ds.length = k && ds.all Char.isDigit && look5 (l.drop k) then
    some (ds, l.drop k)
  else none

/-- The greedy `\d{1,3}` with lookahead: three digits, else two, else
one. -/
def m5 (l : List Char) : Option (List Char × List Char) :=
  (take5 3 l).orElse fun _ => (take5 2 l).orElse fun _ => take5 1 l

/-- Whether an optional previous character satisfies a lookbehind
class. -/
def prevIs (cls : Char → Bool) : Option Char → Bool
  | some p => cls p
  | none => false

/-- Rule 5 as a scanner with one character of lookbehind state.  The
class is `[a-záéíóöőúüű]` under `re.IGNORECASE`, i.e. `hunLetterCI`.
After a deletion the scan resumes after the digits, with the last
deleted digit as the new previous character (digits are never in the
class, matching the regex's behaviour on the original string). -/
def rule5Go (cls : Char → Bool) : Nat → Option Char → List Char → List Char
  | 0, _, l => l
  | _ + 1, _, [] => []
  | n + 1, prev, c :: t =>
    if prevIs cls prev then
      match m5 (c :: t) with
      | some (ds, rest) => rule5Go cls n ds.getLast? rest
      | none => c :: rule5Go cls n (some c) t
    else c :: rule5Go cls n (some c) t

/-- Rule 5 over a whole string (the scan starts with no previous
character). -/
def subWordNumbers (l : List Char) : List Char :=
  rule5Go hunLetterCI l.length none l

/-- Modelled from the spec: the variant of rule 5 the claim describes,
whose lookbehind accepts only lowercase letters of the alphabet
(ignoring the pattern's `re.IGNORECASE` flag).  Used solely for
comparison with the source-faithful `subWordNumbers`. -/
def subWordNumbersLowercaseOnly (l : List Char) : List Char :=
  rule5Go hunLowercase l.length none l

/-! ## Rules 6-9 -/

/-- Greedy `\s*` followed by a continuation matcher, with backtracking:
prefer consuming more whitespace; on failure of the deeper attempt,
try the continuation at the current position. -/
def wsThen (k : List Char → Option (List Char)) : List Char → Option (List Char)
  | [] => k []
  | c :: t =>
    if isPyWS c then
      match wsThen k t with
      | some r => some r
      | none => k (c :: t)
    else k (c :: t)

/-- The literal `\n\n` (exactly two breaks), as in rule 9. -/
def nn2 : List Char → Option (List Char)
  | c1 :: c2 :: r => if c1 = '\n' && c2 = '\n' then some r else none
  | _ => none

/-- The greedy `\n\n+` (two or more breaks), as in rule 6. -/
def nn2plus : List Char → Option (List Char)
  | c1 :: c2 :: r =>
    if c1 = '\n' && c2 = '\n' then some (r.dropWhile (· = '\n')) else none
  | _ => none

/-- Matcher for rule 6 (source line 140): `\((\d+)\)\s*\n\n+`, replaced
by `(\1) `. -/
def paraNumMatch (l : List Char) : Option (List Char × List Char) :=
  match l with
  | c0 :: r =>
    if c0 = '(' then
      let ds := r.takeWhile Char.isDigit
      if ds.isEmpty then none
      else
        match r.dropWhile Char.isDigit with
        | c1 :: r2 =>
          if c1 = ')' then
            match wsThen nn2plus r2 with
            | some r3 => some ('(' :: ds ++ [')', ' '], r3)
            | none => none
          else none
        | [] => none
    else none
  | [] => none

/-- Matcher for rule 7 (source line 143): `' +'` replaced by one
space; greedy, so the whole run is consumed. -/
def spaceMatch (l : List Char) : Option (List Char × List Char) :=
  match l with
  | c :: r => if c = ' ' then some ([' '], r.dropWhile (· = ' ')) else none
  | [] => none

/-- Matcher for rule 8 (source line 146): `\n{3,}` replaced by two
breaks; greedy, so the whole run is consumed. -/
def breakMatch (l : List Char) : Option (List Char × List Char) :=
  match l with
  | c1 :: c2 :: c3 :: r =>
    if c1 = '\n' && c2 = '\n' && c3 = '\n' then
      some (['\n', '\n'], r.dropWhile (· = '\n'))
    else none
  | _ => none

/-- Matcher for rule 9 (source line 149): `\n\n\s*\n\n` replaced by a
single double break. -/
def blankParaMatch (l : List Char) : Option (List Char × List Char) :=
  match l with
  | c1 :: c2 :: u =>
    if c1 = '\n' && c2 = '\n' then (wsThen nn2 u).map fun r => (['\n', '\n'], r)
    else none
  | _ => none

/-! ## The normalizer `clean_text` -/

/-- Rule 1 (source lines 104-106): delete every Unicode superscript
digit, one glyph at a time as in the source's loop of `str.replace`
calls. -/
def removeSuperscriptDigits (l : List Char) : List Char :=
  superscriptDigits.foldl (fun acc d => acc.filter (· ≠ d)) l

/-- Rules 2-9 as single `re.sub` passes. -/
def subLasd (l : List Char) : List Char := subL (markerMatch lasdMarkers) l

/-- Rule 3. -/
def subModifiers (l : List Char) : List Char := subL (markerMatch modMarkers) l

/-- Rule 4. -/
def subDateParen (l : List Char) : List Char := subL dateParenMatch l

/-- Rule 6. -/
def subParaNum (l : List Char) : List Char := subL paraNumMatch l

/-- Rule 7. -/
def subSpaces (l : List Char) : List Char := subL spaceMatch l

/-- Rule 8. -/
def subBreaks (l : List Char) : List Char := subL breakMatch l

/-- Rule 9. -/
def subBlankParas (l : List Char) : List Char := subL blankParaMatch l

/-- The normalizer `clean_text` (source lines 99-151): the ten rules in
order, ending with `str.strip`. -/
def cleanTextL (l : List Char) : List Char :=
  pyStrip (subBlankParas (subBreaks (subSpaces (subParaNum (subWordNumbers
    (subDateParen (subModifiers (subLasd (removeSuperscriptDigits l)))))))))

/-- `clean_text` on `String`. -/
def clean_text (s : String) : String :=
  ⟨cleanTextL s.data⟩

/-! ## The document writer `create_word_document` -/

/-- Prepend a character onto the first piece of a non-empty split. -/
def consHd (c : Char) : List (List Char) → List (List Char)
  | [] => [[c]]
  | s :: ss => (c :: s) :: ss

/-- Python's `text.split("\n\n")`: leftmost, non-overlapping. -/
def splitNN : Nat → List Char → List (List Char)
  | 0, l => [l]
  | _ + 1, [] => [[]]
  | n + 1, c :: t =>
    match t with
    | c2 :: r =>
      if c = '\n' && c2 = '\n' then [] :: splitNN n r
      else consHd c (splitNN n t)
    | [] => consHd c (splitNN n t)

/-- `text.split("\n\n")` with adequate fuel. -/
def splitNNL (l : List Char) : List (List Char) := splitNN l.length l

/-- Per-paragraph processing of `create_word_document` (source lines
168-172): replace embedded breaks by spaces, collapse space runs,
strip. -/
def paraProcess (p : List Char) : List Char :=
  pyStrip (subSpaces (p.map fun c => if c = '\n' then ' ' else c))

/-- The paragraph records added to the output document (source lines
166-175): processed segments that are non-empty. -/
def wordParagraphs (text : List Char) : List (List Char) :=
  ((splitNNL text).map paraProcess).filter (fun p => !p.isEmpty)

/-- Modelled from the spec: the variant of rule 6 the claim describes,
which rewrites the marker only when it stands on a line of its own
(preceded by a line break or the start of the text).  Used solely for
comparison with the source-faithful `subParaNum`. -/
def paraNumStandaloneGo : Nat → Bool → List Char → List Char
  | 0, _, l => l
  | _ + 1, _, [] => []
  | n + 1, atStart, c :: t =>
    if atStart then
      match paraNumMatch (c :: t) with
      | some (rep, rest) => rep ++ paraNumStandaloneGo n false rest
      | none => c :: paraNumStandaloneGo n (c = '\n') t
    else c :: paraNumStandaloneGo n (c = '\n') t

/-- Modelled from the spec: rule 6 restricted to standalone (own-line)
markers. -/
def subParaNumStandalone (l : List Char) : List Char :=
  paraNumStandaloneGo l.length true l

/-! ## Properties used in the statements -/

/-- Modelled from the claim's wording for the superscript-noise filter:
the stripped text is purely digits AND (font size < 8, or style-flag
bit 0 set, or (all digits and font size < 10)).  Used for comparison
with the source-faithful `spanSkip`. -/
def claimNoise (sp : Span) : Bool :=
  pyIsdigit (pyStrip sp.text) &&
    (decide (sp.size < 8) || sp.flags % 2 == 1 ||
      (pyIsdigit (pyStrip sp.text) && decide (sp.size < 10)))

/-- The last element of `ds` if any, otherwise the fallback `prev`:
the lookbehind character after scanning past `ds`. -/
def lastOr (prev : Option Char) (ds : List Char) : Option Char :=
  match ds.getLast? with
  | some d => some d
  | none => prev

/-- No Unicode superscript digit occurs. -/
def NoSuper (l : List Char) : Prop := ∀ c ∈ l, c ∉ superscriptDigits

/-- No two consecutive space characters occur. -/
def NoTwoSpaces (l : List Char) : Prop := ¬ ∃ a b, l = a ++ [' ', ' '] ++ b

/-- No three consecutive line breaks occur. -/
def NoTriple (l : List Char) : Prop := ¬ ∃ a b, l = a ++ ['\n', '\n', '\n'] ++ b

/-- No fully-blank paragraph: no whitespace-only stretch delimited by
double line-breaks on both sides. -/
def NoBlankSeg (l : List Char) : Prop :=
  ¬ ∃ a w b, l = a ++ ['\n', '\n'] ++ w ++ ['\n', '\n'] ++ b ∧ ∀ c ∈ w, isPyWS c = true

/-- No leading and no trailing whitespace. -/
def NoEdgeWS (l : List Char) : Prop :=
  (∀ c, l.head? = some c → isPyWS c = false) ∧
    (∀ c, l.getLast? = some c → isPyWS c = false)

/-- The list starts with (possibly empty) whitespace followed by a
double line-break. -/
def StartsWsNN (l : List Char) : Prop :=
  ∃ w r, l = w ++ ['\n', '\n'] ++ r ∧ ∀ c ∈ w, isPyWS c = true

/-! ## Character-class facts -/

theorem digit_cases {c : Char} (h : c.isDigit = true) :
    c ∈ ['0', '1', '2', '3', '4', '5', '6', '7', '8', '9'] := by
  simp only [Char.isDigit, Bool.and_eq_true, decide_eq_true_eq] at h
  obtain ⟨h0, h9⟩ := h
  have h0' : 48 ≤ c.val.toNat := h0
  have h9' : c.val.toNat ≤ 57 := h9
  have hc : ∀ (d : Char), c.val.toNat = d.val.toNat → c = d := fun d hd =>
    Char.ext (UInt32.ext hd)
  interval_cases hn : c.val.toNat
  all_goals first
    | (rw [hc '0' (by decide)]; decide)
    | (rw [hc '1' (by decide)]; decide)
    | (rw [hc '2' (by decide)]; decide)
    | (rw [hc '3' (by decide)]; decide)
    | (rw [hc '4' (by decide)]; decide)
    | (rw [hc '5' (by decide)]; decide)
    | (rw [hc '6' (by decide)]; decide)
    | (rw [hc '7' (by decide)]; decide)
    | (rw [hc '8' (by decide)]; decide)
    | (rw [hc '9' (by decide)]; decide)

theorem hunLetterCI_digit {c : Char} (h : c.isDigit = true) : hunLetterCI c = false := by
  have := digit_cases h
  fin_cases this <;> decide

theorem look5_digit_head {c : Char} (t : List Char) (h : c.isDigit = true) :
    look5 (c :: t) = false := by
  have := digit_cases h
  fin_cases this <;> simp [look5, isPyWS]

theorem look5_head_not_digit {c : Char} {t : List Char} (h : look5 (c :: t) = true) :
    c.isDigit = false := by
  by_contra hne
  rw [Bool.not_eq_false] at hne
  rw [look5_digit_head t hne] at h
  exact Bool.false_ne_true h

/-! ## Rule-5 matcher facts -/

theorem take5_eq_some {k : Nat} {l : List Char} {p : List Char × List Char}
    (h : take5 k l = some p) : p.1 = l.take k ∧ p.2 = l.drop k ∧ k ≤ l.length := by
  unfold take5 at h
  by_cases hc : ((l.take k).length = k && (l.take k).all Char.isDigit && look5 (l.drop k)) = true
  · rw [if_pos hc] at h
    cases h
    refine ⟨rfl, rfl, ?_⟩
    simp only [Bool.and_eq_true, beq_iff_eq] at hc
    have := hc.1.1
    simp only [List.length_take, decide_eq_true_eq] at this
    omega
  · rw [if_neg hc] at h
    cases h

theorem m5_rest {l : List Char} {p : List Char × List Char} (h : m5 l = some p) :
    p.2.length < l.length := by
  unfold m5 at h
  rcases h3 : take5 3 l with _ | p3
  · rcases h2 : take5 2 l with _ | p2
    · rcases h1 : take5 1 l with _ | p1
      · simp [h3, h2, h1, Option.orElse] at h
      · simp only [h3, h2, h1, Option.orElse] at h
        cases h
        obtain ⟨-, hd, hk⟩ := take5_eq_some h1
        rw [hd]
        simp only [List.length_drop]
        omega
    · simp only [h3, h2, Option.orElse] at h
      cases h
      obtain ⟨-, hd, hk⟩ := take5_eq_some h2
      rw [hd]
      simp only [List.length_drop]
      omega
  · simp only [h3, Option.orElse] at h
    cases h
    obtain ⟨-, hd, hk⟩ := take5_eq_some h3
    rw [hd]
    simp only [List.length_drop]
    omega

theorem rule5Go_fuel (cls : Char → Bool) :
    ∀ n m (prev : Option Char) (l : List Char), l.length ≤ n → l.length ≤ m →
      rule5Go cls n prev l = rule5Go cls m prev l := by
  intro n
  induction n with
  | zero =>
    intro m prev l hn _
    have : l = [] := List.eq_nil_of_length_eq_zero (Nat.le_zero.mp hn)
    subst this
    cases m <;> rfl
  | succ n ih =>
    intro m prev l hn hm
    cases l with
    | nil => cases m <;> rfl
    | cons c t =>
      cases m with
      | zero => simp at hm
      | succ m' =>
        show rule5Go cls (n+1) prev (c :: t) = rule5Go cls (m'+1) prev (c :: t)
        unfold rule5Go
        by_cases hp : prevIs cls prev = true
        · rw [hp]
          simp only [if_true]
          rcases h5 : m5 (c :: t) with _ | ⟨ds, rest⟩
          · rw [ih m' (some c) t (by simpa using hn) (by simpa using hm)]
          · have hlt := m5_rest h5
            simp only [List.length_cons] at hlt
            exact ih m' ds.getLast? rest (by simp at hn; omega) (by simp at hm; omega)
        · rw [Bool.not_eq_true] at hp
          rw [hp]
          simp only [Bool.false_eq_true, if_false]
          rw [ih m' (some c) t (by simpa using hn) (by simpa using hm)]

theorem take5_of_all {ds t : List Char} (hall : ds.all Char.isDigit = true)
    (hla : look5 t = true) : take5 ds.length (ds ++ t) = some (ds, t) := by
  unfold take5
  rw [List.take_left, List.drop_left]
  rw [if_pos (by simp [hall, hla])]

theorem take5_none_gt {ds t : List Char} {k : Nat} (hlt : ds.length < k)
    (hla : look5 t = true) : take5 k (ds ++ t) = none := by
  have hcond : (((ds ++ t).take k).length = k && ((ds ++ t).take k).all Char.isDigit &&
      look5 ((ds ++ t).drop k)) = false := by
    by_contra h
    rw [Bool.not_eq_false] at h
    simp only [Bool.and_eq_true, decide_eq_true_eq, List.all_eq_true] at h
    obtain ⟨⟨hlen, hdig⟩, -⟩ := h
    rw [List.length_take] at hlen
    cases t with
    | nil =>
      simp only [List.append_nil] at hlen
      omega
    | cons c t' =>
      have hc : c.isDigit = false := look5_head_not_digit hla
      have hmem : c ∈ (ds ++ c :: t').take k := by
        have heq : (ds ++ c :: t').take k = ds ++ (c :: t').take (k - ds.length) := by
          rw [List.take_append_eq_append_take, List.take_of_length_le (le_of_lt hlt)]
        rw [heq]
        apply List.mem_append_right
        obtain ⟨j, hj⟩ : ∃ j, k - ds.length = j + 1 := ⟨k - ds.length - 1, by omega⟩
        rw [hj, List.take_cons (by omega)]
        exact List.mem_cons_self c _
      have := hdig c hmem
      rw [hc] at this
      exact Bool.false_ne_true this
  unfold take5
  simp only [hcond, Bool.false_eq_true, if_false]

theorem m5_exact {ds t : List Char} (hall : ds.all Char.isDigit = true)
    (h1 : 1 ≤ ds.length) (h3 : ds.length ≤ 3) (hla : look5 t = true) :
    m5 (ds ++ t) = some (ds, t) := by
  have hs := take5_of_all hall hla
  unfold m5
  interval_cases hlen : ds.length
  · rw [take5_none_gt (by omega) hla, take5_none_gt (by omega) hla]
    simp only [hs, Option.orElse]
  · rw [take5_none_gt (by omega) hla]
    simp only [hs, Option.orElse]
  · simp only [hs, Option.orElse]

theorem rule5Go_cons (cls : Char → Bool) (n : Nat) (prev : Option Char)
    (c : Char) (t : List Char) :
    rule5Go cls (n + 1) prev (c :: t) =
      if prevIs cls prev then
        match m5 (c :: t) with
        | some (ds, rest) => rule5Go cls n ds.getLast? rest
        | none => c :: rule5Go cls n (some c) t
      else c :: rule5Go cls n (some c) t := rfl

theorem lastOr_cons (prev : Option Char) (d : Char) (ds : List Char) :
    lastOr (some d) ds = lastOr prev (d :: ds) := by
  cases ds with
  | nil => simp [lastOr]
  | cons e es =>
    unfold lastOr
    rw [List.getLast?_cons_cons]
    cases hg : (e :: es).getLast? with
    | some x => rfl
    | none => exact absurd (List.getLast?_eq_none_iff.mp hg) (by simp)

theorem lastOr_of_ne_nil (prev : Option Char) {ds : List Char} (h : ds ≠ []) :
    lastOr prev ds = ds.getLast? := by
  unfold lastOr
  cases hg : ds.getLast? with
  | some d => rfl
  | none => exact absurd (List.getLast?_eq_none_iff.mp hg) h

theorem rule5Go_copy_digits (cls : Char → Bool)
    (hcls : ∀ d, d.isDigit = true → cls d = false) :
    ∀ (ds : List Char) (prev : Option Char) (t : List Char) (n : Nat),
      ds.all Char.isDigit = true → prevIs cls prev = false →
      ds.length + t.length ≤ n →
      rule5Go cls n prev (ds ++ t) = ds ++ rule5Go cls t.length (lastOr prev ds) t := by
  intro ds
  induction ds with
  | nil =>
    intro prev t n _ _ hn
    simp only [List.nil_append, lastOr]
    exact rule5Go_fuel cls n t.length prev t (by simpa using hn) le_rfl
  | cons d ds' ih =>
    intro prev t n hall hprev hn
    simp only [List.all_cons, Bool.and_eq_true] at hall
    obtain ⟨hd, hall'⟩ := hall
    cases n with
    | zero => simp at hn
    | succ n' =>
      rw [List.cons_append, rule5Go_cons, hprev]
      simp only [Bool.false_eq_true, if_false]
      have hprev' : prevIs cls (some d) = false := by
        simp [prevIs, hcls d hd]
      rw [ih (some d) t n' hall' hprev' (by simp only [List.length_cons] at hn; omega)]
      rw [lastOr_cons prev d ds']
      rfl

/-! ## Claim C3: rule 5's lookbehind under IGNORECASE -/

/-- C3 counterexample: the code (with `re.IGNORECASE`) strips `42` even
after the uppercase letter `B`, while the claimed lowercase-only rule
leaves the input unchanged. -/
theorem c3_counterexample :
    subWordNumbers ("B42 ".data) = "B ".data ∧
      subWordNumbersLowercaseOnly ("B42 ".data) = "B42 ".data := by
  constructor <;> decide

/-- C3 (amended): rule 5 deletes a fused 1-3 digit run (followed by
whitespace, closing punctuation, or end of text) exactly when the
preceding character matches the letter class case-insensitively: both
lowercase and uppercase letters of the document's alphabet trigger the
deletion, because the pattern is compiled with `re.IGNORECASE`. -/
theorem c3_amended (n : Nat) (c : Char) (ds t : List Char)
    (hds : ds.all Char.isDigit = true) (h1 : 1 ≤ ds.length) (h3 : ds.length ≤ 3)
    (hla : look5 t = true) (hn : 1 + ds.length + t.length ≤ n) :
    rule5Go hunLetterCI n none (c :: (ds ++ t)) =
      (if hunLetterCI c then [c] else c :: ds) ++
        rule5Go hunLetterCI t.length ds.getLast? t := by
  have hne : ds ≠ [] := by
    intro h
    rw [h] at h1
    simp at h1
  obtain ⟨d, ds'', rfl⟩ : ∃ d ds'', ds = d :: ds'' := by
    cases ds with
    | nil => exact absurd rfl hne
    | cons d ds'' => exact ⟨d, ds'', rfl⟩
  have hlen : (d :: ds'').length = ds''.length + 1 := by simp
  cases n with
  | zero => omega
  | succ n' =>
    rw [rule5Go_cons]
    simp only [prevIs, Bool.false_eq_true, if_false]
    by_cases hc : hunLetterCI c = true
    · cases n' with
      | zero => rw [hlen] at hn; omega
      | succ n'' =>
        rw [List.cons_append, rule5Go_cons]
        simp only [prevIs, hc, if_true]
        have hm5 : m5 (d :: (ds'' ++ t)) = some (d :: ds'', t) := by
          have := m5_exact hds h1 h3 hla
          rwa [List.cons_append] at this
        rw [hm5]
        simp only [List.singleton_append]
        have hfuel : rule5Go hunLetterCI n'' (d :: ds'').getLast? t =
            rule5Go hunLetterCI t.length (d :: ds'').getLast? t :=
          rule5Go_fuel hunLetterCI n'' t.length _ t
            (by rw [hlen] at hn; omega) le_rfl
        rw [hfuel]
    · rw [Bool.not_eq_true] at hc
      rw [hc]
      simp only [Bool.false_eq_true, if_false]
      rw [rule5Go_copy_digits hunLetterCI (fun e he => hunLetterCI_digit he)
        (d :: ds'') (some c) t n' hds (by simp [prevIs, hc])
        (by rw [hlen] at hn ⊢; omega)]
      rw [lastOr_of_ne_nil _ hne]
      rfl

/-- C3 witness: the amended theorem applied at `"B42 "` (uppercase `B`
before the digits, space after). -/
theorem c3_witness : rule5Go hunLetterCI 5 none ("B42 ".data) = "B ".data := by
  have h := c3_amended 5 'B' ['4', '2'] [' '] (by decide) (by decide) (by decide)
    (by decide) (by decide)
  exact h.trans (by decide)

/-! ## Claim C10: rule 5 never touches runs of four or more digits -/

/-- The rule-5 matcher cannot fire at the start of a run of at least
four digits: each greedy attempt (3, 2 or 1 digits) is followed by a
further digit, which fails the lookahead. -/
theorem m5_none_of_four {ds b : List Char} (hds : ds.all Char.isDigit = true)
    (h4 : 4 ≤ ds.length) : m5 (ds ++ b) = none := by
  have hlook : ∀ k, 1 ≤ k → k ≤ 3 → look5 ((ds ++ b).drop k) = false := by
    intro k hk1 hk3
    rw [List.drop_append_of_le_length (by omega)]
    rw [List.drop_eq_getElem_cons (by omega : k < ds.length)]
    rw [List.cons_append]
    apply look5_digit_head
    simp only [List.all_eq_true] at hds
    exact hds _ (List.getElem_mem _)
  have hnone : ∀ k, 1 ≤ k → k ≤ 3 → take5 k (ds ++ b) = none := by
    intro k hk1 hk3
    simp [take5, hlook k hk1 hk3]
  unfold m5
  rw [hnone 3 (by omega) (by omega), hnone 2 (by omega) (by omega),
    hnone 1 (by omega) (by omega)]
  rfl

/-- C10: rule 5 never deletes any digit of a run of four or more
digits, regardless of the preceding character (in particular even when
the run is fused to a lowercase letter), and the scan continues after
the run unchanged. -/
theorem c10_long_digit_runs (n : Nat) (prev : Option Char) (ds b : List Char)
    (hds : ds.all Char.isDigit = true) (h4 : 4 ≤ ds.length)
    (hn : ds.length + b.length ≤ n) :
    rule5Go hunLetterCI n prev (ds ++ b) =
      ds ++ rule5Go hunLetterCI b.length ds.getLast? b := by
  have hne : ds ≠ [] := by
    intro h
    rw [h] at h4
    simp at h4
  by_cases hp : prevIs hunLetterCI prev = true
  · obtain ⟨d, ds'', rfl⟩ : ∃ d ds'', ds = d :: ds'' := by
      cases ds with
      | nil => exact absurd rfl hne
      | cons d ds'' => exact ⟨d, ds'', rfl⟩
    have hlen : (d :: ds'').length = ds''.length + 1 := by simp
    cases n with
    | zero => rw [hlen] at hn; omega
    | succ n' =>
      rw [List.cons_append, rule5Go_cons, hp]
      simp only [if_true]
      have hm5 : m5 (d :: (ds'' ++ b)) = none := by
        have := @m5_none_of_four (d :: ds'') b hds h4
        rwa [List.cons_append] at this
      rw [hm5]
      simp only [List.all_cons, Bool.and_eq_true] at hds
      obtain ⟨hd, hds'⟩ := hds
      rw [rule5Go_copy_digits hunLetterCI (fun e he => hunLetterCI_digit he)
        ds'' (some d) b n' hds' (by simp [prevIs, hunLetterCI_digit hd])
        (by rw [hlen] at hn; omega)]
      rw [lastOr_cons prev d ds'', lastOr_of_ne_nil prev (by simp)]
      rfl
  · rw [Bool.not_eq_true] at hp
    rw [rule5Go_copy_digits hunLetterCI (fun e he => hunLetterCI_digit he)
      ds prev b n hds hp hn]
    rw [lastOr_of_ne_nil prev hne]

/-- C10 witness: the theorem applied with a lowercase letter before a
four-digit year (`"szó2018 "` seen from the `ó`). -/
theorem c10_witness :
    rule5Go hunLetterCI 6 (some 'ó') ("2018 x".data) = "2018 x".data := by
  have h := c10_long_digit_runs 6 (some 'ó') ['2', '0', '1', '8'] [' ', 'x']
    (by decide) (by decide) (by decide)
  exact h.trans (by decide)

/-! ## Claim C2: the superscript-noise span filter -/

theorem lineText_foldl (sps : List Span) :
    ∀ acc : List Char,
      sps.foldl (fun a sp => if spanSkip sp then a else a ++ sp.text) acc =
        acc ++ ((sps.filter fun sp => !spanSkip sp).map Span.text).flatten := by
  induction sps with
  | nil => intro acc; simp
  | cons sp t ih =>
    intro acc
    rw [List.foldl_cons, List.filter_cons]
    by_cases h : spanSkip sp = true
    · rw [if_pos h, h]
      simp only [Bool.not_true, Bool.false_eq_true, if_false]
      exact ih acc
    · have hb : spanSkip sp = false := by rwa [Bool.not_eq_true] at h
      rw [if_neg h, hb]
      simp only [Bool.not_false, if_true, List.map_cons, List.flatten_cons]
      rw [ih (acc ++ sp.text), List.append_assoc]

theorem spanSkip_eq_claimNoise (sp : Span) : spanSkip sp = claimNoise sp := by
  unfold spanSkip claimNoise isSuperscriptSpan
  exact Bool.and_comm _ _

/-- C2: during line assembly a span's text is omitted exactly when the
span satisfies the claim's superscript-noise condition (stripped text
purely digits AND (size < 8, or flag bit 0, or (digits and size < 10)));
in particular a digit span `"3"` at size 7 is dropped while `"Article"`
at size 7 is kept. -/
theorem c2_superscript_span_filter :
    (∀ ln : Line, lineText ln =
      ((ln.spans.filter fun sp => !claimNoise sp).map Span.text).flatten) ∧
    spanSkip ⟨['3'], 7, 0⟩ = true ∧ spanSkip ⟨"Article".data, 7, 0⟩ = false := by
  refine ⟨fun ln => ?_, by decide, by decide⟩
  unfold lineText
  rw [lineText_foldl ln.spans []]
  simp only [List.nil_append]
  rw [show (fun sp => !spanSkip sp) = (fun sp => !claimNoise sp) from
    funext fun sp => by rw [spanSkip_eq_claimNoise]]

/-! ## Claim C6: the page-number line filter -/

/-- C6: a line whose concatenated stripped text is all digits is
discarded when it has at most three characters and kept (as its
stripped text) when it has four or more; in particular the line `"42"`
is dropped. -/
theorem c6_page_number_lines :
    (∀ ln : Line, pyIsdigit (pyStrip (lineText ln)) = true →
        (pyStrip (lineText ln)).length ≤ 3 → lineOut ln = none) ∧
    (∀ ln : Line, pyIsdigit (pyStrip (lineText ln)) = true →
        4 ≤ (pyStrip (lineText ln)).length →
        lineOut ln = some (pyStrip (lineText ln))) ∧
    lineOut ⟨[⟨['4', '2'], 12, 0⟩]⟩ = none := by
  refine ⟨fun ln h1 h2 => ?_, fun ln h1 h2 => ?_, by decide⟩
  · unfold lineOut
    rw [if_pos (by simp [h1, h2])]
  · unfold lineOut
    rw [if_neg (by simp [h1]; omega)]
    rw [if_neg ?_]
    simp only [List.isEmpty_eq_true]
    intro hnil
    rw [hnil] at h2
    simp at h2

/-- C6 witness: the second part applied at a four-digit line. -/
theorem c6_witness :
    lineOut ⟨[⟨['1', '2', '3', '4'], 12, 0⟩]⟩ = some ['1', '2', '3', '4'] := by
  have h := c6_page_number_lines.2.1 ⟨[⟨['1', '2', '3', '4'], 12, 0⟩]⟩
    (by decide) (by decide)
  exact h.trans (by decide)

/-! ## Claim C4: the end-to-end normalizer scenario -/

/-- C4: the normalizer maps the scenario input to exactly two
paragraphs: the superscript digit is removed, the `Lásd:` sentence is
deleted, and the orphaned `(2)` is merged onto the next paragraph. -/
theorem c4_end_to_end :
    clean_text "Ez egy szöveg³ itt.\n\nLásd: 2018. évi törvény.\n\n(2)\n\n A következő bekezdés." =
      "Ez egy szöveg itt.\n\n(2) A következő bekezdés." := by
  decide

/-! ## Claim C9: totality of the normalizer -/

/-- C9: the normalizer is a total function on strings: it returns a
string for every input, and on the empty string it returns the empty
string. -/
theorem c9_total :
    (∀ s : String, ∃ t : String, clean_text s = t) ∧ clean_text "" = "" :=
  ⟨fun _ => ⟨_, rfl⟩, by decide⟩

/-! ## Counterexamples for claims C5 and C7 -/

/-- C5 counterexample: running rule 4 (the date-citation deletion) on
the normalizer's own output changes it: on this input rule 5 of the
first pass glues `2-től123.` into `2-től.`, creating a fresh
date-citation match that only a second pass would delete.  Hence
re-running the normalizer does change a rule-4 outcome. -/
theorem c5_counterexample :
    subDateParen (cleanTextL ("a (2018. VI. 2-től123.) b".data)) ≠
      cleanTextL ("a (2018. VI. 2-től123.) b".data) := by
  decide

/-- C7 counterexample: rule 6 rewrites `(2)` even when it does not
stand on its own line (`"a (2)\n\nb"`), while the claimed
standalone-only rule leaves that input unchanged. -/
theorem c7_counterexample :
    subParaNum ("a (2)\n\nb".data) = "a (2) b".data ∧
      subParaNumStandalone ("a (2)\n\nb".data) = "a (2)\n\nb".data := by
  constructor <;> decide

/-! ## Claim C1: the geometric block filter -/

theorem blockText_some (h y : ℚ) (lns : List Line) :
    blockText h ⟨y, some lns⟩ =
      if y < h * (1/10) then none
      else if y > h * (17/20) then none
      else
        let ts := lns.filterMap lineOut
        if ts.isEmpty then none else some (joinSep [' '] ts) := rfl

/-- C1 counterexample: a block whose top edge sits exactly at
`0.10 * page_height` (here `y = 1`, `height = 10`) is RETAINED by the
code — the comparison is strict — while the claim says it is excluded. -/
theorem c1_counterexample :
    blockText 10 ⟨1, some [⟨[⟨"Hello".data, 12, 0⟩]⟩]⟩ = some ("Hello".data) ∧
      (1 : ℚ) = 10 * (1/10) := by
  constructor
  · rw [blockText_some]
    rw [if_neg (by norm_num), if_neg (by norm_num)]
    decide
  · norm_num

/-- C1 (amended): a block (with a `"lines"` key) is excluded regardless
of content exactly when its top y lies in `[0, 0.10*h)` or
`(0.85*h, h]` — both comparisons strict, so the boundary `0.10*h`
itself is retained; outside those regions the block is dropped if and
only if it retains no line. -/
theorem c1_amended (h : ℚ) (b : Block) (lns : List Line) (hl : b.lines? = some lns) :
    ((b.yTop < h * (1/10) ∨ b.yTop > h * (17/20)) → blockText h b = none) ∧
    (h * (1/10) ≤ b.yTop → b.yTop ≤ h * (17/20) →
      (blockText h b = none ↔ lns.filterMap lineOut = [])) := by
  obtain ⟨y, lns?⟩ := b
  simp only at hl
  subst hl
  simp only
  rw [blockText_some]
  constructor
  · intro hdisj
    by_cases h1 : y < h * (1/10)
    · rw [if_pos h1]
    · rw [if_neg h1]
      rcases hdisj with h2 | h2
      · exact absurd h2 h1
      · rw [if_pos h2]
  · intro hlo hhi
    rw [if_neg (not_lt.mpr hlo), if_neg (not_lt.mpr hhi)]
    cases hts : lns.filterMap lineOut with
    | nil => simp [hts]
    | cons p ps => simp [hts]

/-- C1 witness: the amended theorem applied to a footer block
(`y = 20 > 0.85 * 10`), which is excluded. -/
theorem c1_witness :
    blockText 10 ⟨20, some [⟨[⟨"x".data, 12, 0⟩]⟩]⟩ = none :=
  (c1_amended 10 ⟨20, some [⟨[⟨"x".data, 12, 0⟩]⟩]⟩ [⟨[⟨"x".data, 12, 0⟩]⟩] rfl).1
    (Or.inr (by norm_num))

/-! ## Generic facts about the `re.sub` scanner -/

theorem sub_cons (m : List Char → Option (List Char × List Char)) (n : Nat)
    (c : Char) (t : List Char) :
    sub m (n + 1) (c :: t) =
      match m (c :: t) with
      | some (rep, rest) => rep ++ sub m n rest
      | none => c :: sub m n t := rfl

theorem sub_fuel (m : List Char → Option (List Char × List Char))
    (hm : ∀ l pr, m l = some pr → pr.2.length < l.length) :
    ∀ n₁ n₂ (l : List Char), l.length ≤ n₁ → l.length ≤ n₂ →
      sub m n₁ l = sub m n₂ l := by
  intro n₁
  induction n₁ with
  | zero =>
    intro n₂ l hn _
    have : l = [] := List.eq_nil_of_length_eq_zero (Nat.le_zero.mp hn)
    subst this
    cases n₂ <;> rfl
  | succ n ih =>
    intro n₂ l hn hm2
    cases l with
    | nil => cases n₂ <;> rfl
    | cons c t =>
      cases n₂ with
      | zero => simp at hm2
      | succ m' =>
        rw [sub_cons, sub_cons]
        rcases hmt : m (c :: t) with _ | ⟨rep, rest⟩
        · show c :: sub m n t = c :: sub m m' t
          rw [ih m' t (by simpa using hn) (by simpa using hm2)]
        · have hlt := hm _ _ hmt
          simp only [List.length_cons] at hlt
          show rep ++ sub m n rest = rep ++ sub m m' rest
          rw [ih m' rest (by simp at hn; omega) (by simp at hm2; omega)]

theorem sub_append_nofire (m : List Char → Option (List Char × List Char)) :
    ∀ (pre x : List Char) (n : Nat),
      (∀ (c : Char) (t : List Char), c ∈ pre → m (c :: t) = none) →
      pre.length + x.length ≤ n →
      sub m n (pre ++ x) = pre ++ sub m (n - pre.length) x := by
  intro pre
  induction pre with
  | nil => intro x n _ _; simp
  | cons c pre' ih =>
    intro x n hno hn
    cases n with
    | zero => simp at hn
    | succ n' =>
      show sub m (n' + 1) (c :: (pre' ++ x)) = _
      rw [sub_cons]
      rw [hno c (pre' ++ x) (List.mem_cons_self c pre')]
      show c :: sub m n' (pre' ++ x) = _
      rw [ih x n' (fun d t hd => hno d t (List.mem_cons_of_mem c hd))
        (by simp only [List.length_cons] at hn; omega)]
      have harith : (n' + 1) - (c :: pre').length = n' - pre'.length := by
        simp only [List.length_cons]
        omega
      rw [harith, List.cons_append]

/-! ## Facts about the rule-6 matcher -/

theorem nofire_of_ne_paren {c : Char} (t : List Char) (h : c ≠ '(') :
    paraNumMatch (c :: t) = none := by
  simp only [paraNumMatch]
  rw [if_neg h]

theorem takeWhile_all_append {p : Char → Bool} {a b : List Char}
    (ha : ∀ c ∈ a, p c = true) (hb : ∀ c, b.head? = some c → p c = false) :
    (a ++ b).takeWhile p = a ∧ (a ++ b).dropWhile p = b := by
  induction a with
  | nil =>
    cases b with
    | nil => simp
    | cons c b' =>
      have := hb c rfl
      simp [List.takeWhile_cons, List.dropWhile_cons, this]
  | cons c a' ih =>
    have hc := ha c (List.mem_cons_self c a')
    have ih' := ih (fun d hd => ha d (List.mem_cons_of_mem c hd))
    simp [List.takeWhile_cons, List.dropWhile_cons, hc, ih'.1, ih'.2]

theorem not_ws_ne_nl {c : Char} (h : isPyWS c = false) : c ≠ '\n' := by
  intro hc
  subst hc
  simp [isPyWS] at h

theorem wsThen_nn2plus_exact (rest : List Char)
    (hrest : ∀ c, rest.head? = some c → isPyWS c = false) :
    wsThen nn2plus ('\n' :: '\n' :: rest) = some rest := by
  have h1 : wsThen nn2plus rest = none := by
    cases rest with
    | nil => simp [wsThen, nn2plus]
    | cons c rr =>
      have hc := hrest c rfl
      unfold wsThen
      rw [if_neg (by simp [hc])]
      cases rr with
      | nil => simp [nn2plus]
      | cons c2 u =>
        simp only [nn2plus]
        rw [if_neg]
        simp only [Bool.and_eq_true, decide_eq_true_eq, not_and]
        intro hcn
        exact absurd hcn (not_ws_ne_nl hc)
  have hdrop : rest.dropWhile (· = '\n') = rest := by
    cases rest with
    | nil => rfl
    | cons c rr =>
      rw [List.dropWhile_cons, if_neg]
      simp only [decide_eq_true_eq]
      exact not_ws_ne_nl (hrest c rfl)
  have h2 : wsThen nn2plus ('\n' :: rest) = none := by
    unfold wsThen
    rw [if_pos (by decide)]
    rw [h1]
    cases rest with
    | nil => simp [nn2plus]
    | cons c rr =>
      simp only [nn2plus]
      rw [if_neg]
      simp only [Bool.and_eq_true, decide_eq_true_eq, not_and]
      intro _
      exact not_ws_ne_nl (hrest c rfl)
  show wsThen nn2plus ('\n' :: '\n' :: rest) = some rest
  unfold wsThen
  rw [if_pos (by decide)]
  rw [h2]
  simp only [nn2plus]
  rw [if_pos (by decide)]
  rw [hdrop]

theorem paraNumMatch_hit (ds rest : List Char) (hds : ds ≠ [])
    (hall : ds.all Char.isDigit = true)
    (hrest : ∀ c, rest.head? = some c → isPyWS c = false) :
    paraNumMatch ('(' :: (ds ++ ')' :: '\n' :: '\n' :: rest)) =
      some ('(' :: ds ++ [')', ' '], rest) := by
  have htw := takeWhile_all_append (p := Char.isDigit) (a := ds)
    (b := ')' :: '\n' :: '\n' :: rest)
    (fun c hc => by simp only [List.all_eq_true] at hall; exact hall c hc)
    (fun c hc => by simp only [List.head?_cons, Option.some.injEq] at hc; subst hc; decide)
  have hempty : ds.isEmpty = false := by
    cases ds with
    | nil => exact absurd rfl hds
    | cons d t => rfl
  simp only [paraNumMatch, htw.1, htw.2, hempty, Bool.false_eq_true, if_false,
    if_pos trivial, wsThen_nn2plus_exact rest hrest]

theorem nn2_decomp {y r : List Char} (h : nn2 y = some r) :
    ∃ u, y = u ++ r ∧ 2 ≤ u.length ∧ ∀ c ∈ u, isPyWS c = true := by
  cases y with
  | nil => simp [nn2] at h
  | cons c1 t1 =>
    cases t1 with
    | nil => simp [nn2] at h
    | cons c2 u =>
      simp only [nn2] at h
      by_cases hc : (c1 = '\n' && c2 = '\n') = true
      · rw [if_pos hc] at h
        cases h
        simp only [Bool.and_eq_true, decide_eq_true_eq] at hc
        obtain ⟨rfl, rfl⟩ := hc
        exact ⟨['\n', '\n'], rfl, by simp, fun c hc => by
          rcases List.mem_cons.mp hc with rfl | hc2
          · decide
          · rcases List.mem_cons.mp hc2 with rfl | hc3
            · decide
            · simp at hc3⟩
      · rw [if_neg hc] at h
        cases h

theorem nn2plus_decomp {y r : List Char} (h : nn2plus y = some r) :
    ∃ u, y = u ++ r ∧ 2 ≤ u.length ∧ ∀ c ∈ u, isPyWS c = true := by
  cases y with
  | nil => simp [nn2plus] at h
  | cons c1 t1 =>
    cases t1 with
    | nil => simp [nn2plus] at h
    | cons c2 u =>
      simp only [nn2plus] at h
      by_cases hc : (c1 = '\n' && c2 = '\n') = true
      · rw [if_pos hc] at h
        cases h
        simp only [Bool.and_eq_true, decide_eq_true_eq] at hc
        obtain ⟨rfl, rfl⟩ := hc
        refine ⟨'\n' :: '\n' :: u.takeWhile (· = '\n'), ?_, by simp, ?_⟩
        · rw [List.cons_append, List.cons_append, List.takeWhile_append_dropWhile]
        · intro c hcm
          rcases List.mem_cons.mp hcm with rfl | hcm2
          · decide
          · rcases List.mem_cons.mp hcm2 with rfl | hcm3
            · decide
            · have := List.mem_takeWhile_imp hcm3
              simp only [decide_eq_true_eq] at this
              subst this
              decide
      · rw [if_neg hc] at h
        cases h

theorem wsThen_decomp {k : List Char → Option (List Char)}
    (hk : ∀ y r, k y = some r → ∃ u, y = u ++ r ∧ 2 ≤ u.length ∧ ∀ c ∈ u, isPyWS c = true) :
    ∀ (x r : List Char), wsThen k x = some r →
      ∃ u, x = u ++ r ∧ 2 ≤ u.length ∧ ∀ c ∈ u, isPyWS c = true := by
  intro x
  induction x with
  | nil => exact fun r h => hk [] r h
  | cons c t ih =>
    intro r h
    unfold wsThen at h
    by_cases hc : isPyWS c = true
    · rw [if_pos hc] at h
      rcases hw : wsThen k t with _ | r'
      · rw [hw] at h
        exact hk _ _ h
      · rw [hw] at h
        cases h
        obtain ⟨u, ht, hlen, hws⟩ := ih _ hw
        refine ⟨c :: u, by rw [List.cons_append, ht], by simp; omega, ?_⟩
        intro d hd
        rcases List.mem_cons.mp hd with rfl | hd'
        · exact hc
        · exact hws d hd'
    · rw [if_neg hc] at h
      exact hk _ _ h

theorem paraNumMatch_rest {l : List Char} {rep rest : List Char}
    (h : paraNumMatch l = some (rep, rest)) : rest.length < l.length := by
  cases l with
  | nil => simp [paraNumMatch] at h
  | cons c0 r =>
    simp only [paraNumMatch] at h
    by_cases h0 : c0 = '('
    · rw [if_pos h0] at h
      by_cases hds : (r.takeWhile Char.isDigit).isEmpty
      · rw [if_pos hds] at h
        cases h
      · rw [if_neg hds] at h
        rcases hdw : r.dropWhile Char.isDigit with _ | ⟨c1, r2⟩
        · rw [hdw] at h
          cases h
        · rw [hdw] at h
          replace h :
              (if c1 = ')' then
                match wsThen nn2plus r2 with
                | some r3 => some ('(' :: List.takeWhile Char.isDigit r ++ [')', ' '], r3)
                | none => none
              else none) = some (rep, rest) := h
          by_cases h1 : c1 = ')'
          · rw [if_pos h1] at h
            rcases hws : wsThen nn2plus r2 with _ | r3
            · rw [hws] at h
              cases h
            · rw [hws] at h
              cases h
              obtain ⟨u, hu, hlen, -⟩ :=
                wsThen_decomp (fun y rr hy => nn2plus_decomp hy) r2 rest hws
              have hr : (r.takeWhile Char.isDigit).length + (c1 :: r2).length = r.length := by
                have := congrArg List.length
                  (List.takeWhile_append_dropWhile (p := Char.isDigit) (l := r))
                rw [hdw] at this
                simpa using this
              have hr2 : r2.length = u.length + rest.length :=
                hu ▸ List.length_append u rest
              simp only [List.length_cons]
              simp only [List.length_cons] at hr
              omega
          · rw [if_neg h1] at h
            cases h
    · rw [if_neg h0] at h
      cases h

/-! ## Claim C7: rule 6 also fires on non-standalone markers -/

/-- C7 (amended): rule 6 rewrites `(N)` followed (possibly after
whitespace) by a double line-break into `(N) ` prefixed onto the
following text, regardless of what precedes the marker — the pattern
has no own-line requirement.  The prefix only needs to contain no `(`
so that no earlier match fires. -/
theorem c7_amended (n : Nat) (pre ds rest : List Char)
    (hpre : '(' ∉ pre) (hds : ds ≠ []) (hall : ds.all Char.isDigit = true)
    (hrest : ∀ c, rest.head? = some c → isPyWS c = false)
    (hn : pre.length + ds.length + 4 + rest.length ≤ n) :
    sub paraNumMatch n (pre ++ '(' :: (ds ++ ')' :: '\n' :: '\n' :: rest)) =
      pre ++ '(' :: ds ++ [')', ' '] ++ sub paraNumMatch rest.length rest := by
  have hlen : ('(' :: (ds ++ ')' :: '\n' :: '\n' :: rest)).length =
      ds.length + 4 + rest.length := by
    simp
    omega
  rw [sub_append_nofire paraNumMatch pre _ n
    (fun c t hc => nofire_of_ne_paren t (fun he => hpre (he ▸ hc)))
    (by rw [hlen]; omega)]
  obtain ⟨n', hn'⟩ : ∃ n', n - pre.length = n' + 1 := by
    refine ⟨n - pre.length - 1, ?_⟩
    omega
  rw [hn']
  rw [sub_cons]
  rw [paraNumMatch_hit ds rest hds hall hrest]
  show pre ++ ('(' :: ds ++ [')', ' '] ++ sub paraNumMatch n' rest) = _
  rw [sub_fuel paraNumMatch (fun l pr hp => paraNumMatch_rest hp)
    n' rest.length rest (by omega) le_rfl]
  simp [List.append_assoc]

/-- C7 witness: the amended theorem applied at `"a (2)\n\nb"`, where
the marker is preceded by `"a "` on the same line. -/
theorem c7_witness : sub paraNumMatch 9 ("a (2)\n\nb".data) = "a (2) b".data := by
  have h := c7_amended 9 ['a', ' '] ['2'] ['b'] (by decide) (by decide) (by decide)
    (by
      intro c hc
      simp only [List.head?_cons, Option.some.injEq] at hc
      subst hc
      decide)
    (by decide)
  exact h.trans (by decide)

/-! ## Closure of the output invariants under surrounding context -/

theorem noTwoSpaces_infix {p x q : List Char} (h : NoTwoSpaces (p ++ x ++ q)) :
    NoTwoSpaces x := by
  rintro ⟨a, b, rfl⟩
  exact h ⟨p ++ a, b ++ q, by simp [List.append_assoc]⟩

theorem noTriple_infix {p x q : List Char} (h : NoTriple (p ++ x ++ q)) :
    NoTriple x := by
  rintro ⟨a, b, rfl⟩
  exact h ⟨p ++ a, b ++ q, by simp [List.append_assoc]⟩

theorem noBlankSeg_infix {p x q : List Char} (h : NoBlankSeg (p ++ x ++ q)) :
    NoBlankSeg x := by
  rintro ⟨a, w, b, rfl, hw⟩
  exact h ⟨p ++ a, w, b ++ q, by simp [List.append_assoc], hw⟩

theorem noTwoSpaces_cons_of {c : Char} {x : List Char} (h : NoTwoSpaces (c :: x)) :
    NoTwoSpaces x :=
  noTwoSpaces_infix (p := [c]) (q := []) (by simpa using h)

theorem noTriple_cons_of {c : Char} {x : List Char} (h : NoTriple (c :: x)) :
    NoTriple x :=
  noTriple_infix (p := [c]) (q := []) (by simpa using h)

theorem noTwoSpaces_nil : NoTwoSpaces [] := by
  rintro ⟨a, b, hab⟩
  have := congrArg List.length hab
  simp only [List.length_nil, List.length_append, List.length_cons] at this
  omega

theorem noTriple_nil : NoTriple [] := by
  rintro ⟨a, b, hab⟩
  have := congrArg List.length hab
  simp only [List.length_nil, List.length_append, List.length_cons] at this
  omega

theorem noBlankSeg_nil : NoBlankSeg [] := by
  rintro ⟨a, w, b, hab, -⟩
  have := congrArg List.length hab
  simp only [List.length_nil, List.length_append, List.length_cons] at this
  omega

/-- Build `NoTwoSpaces (c :: x)` from `NoTwoSpaces x` when `c` and the
head of `x` are not both spaces. -/
theorem noTwoSpaces_cons {c : Char} {x : List Char}
    (hhd : c = ' ' → x.head? ≠ some ' ') (h : NoTwoSpaces x) :
    NoTwoSpaces (c :: x) := by
  rintro ⟨a, b, hab⟩
  cases a with
  | nil =>
    simp only [List.nil_append, List.cons_append, List.cons.injEq] at hab
    obtain ⟨rfl, hx⟩ := hab
    exact hhd rfl (by rw [hx]; rfl)
  | cons a0 a' =>
    simp only [List.cons_append, List.cons.injEq] at hab
    exact h ⟨a', b, hab.2⟩

theorem dropWhile_head_not {p : Char → Bool} :
    ∀ {l : List Char} {c : Char}, (l.dropWhile p).head? = some c → p c = false := by
  intro l
  induction l with
  | nil => intro c h; simp at h
  | cons d t ih =>
    intro c h
    rw [List.dropWhile_cons] at h
    by_cases hd : p d = true
    · rw [if_pos hd] at h
      exact ih h
    · rw [if_neg hd] at h
      simp only [List.head?_cons, Option.some.injEq] at h
      subst h
      exact Bool.not_eq_true _ |>.mp hd

theorem dropWhile_id_of_head {p : Char → Bool} {l : List Char}
    (h : ∀ c, l.head? = some c → p c = false) : l.dropWhile p = l := by
  cases l with
  | nil => rfl
  | cons c t =>
    rw [List.dropWhile_cons, if_neg]
    rw [h c rfl]
    simp

/-- Any list splits as whitespace, its strip, whitespace. -/
theorem pyStrip_decomp (l : List Char) :
    ∃ p q, l = p ++ pyStrip l ++ q ∧ (∀ c ∈ p, isPyWS c = true) ∧
      (∀ c ∈ q, isPyWS c = true) := by
  have hy : pyStrip l ++ ((l.dropWhile isPyWS).reverse.takeWhile isPyWS).reverse
      = l.dropWhile isPyWS := by
    unfold pyStrip
    rw [← List.reverse_append, List.takeWhile_append_dropWhile, List.reverse_reverse]
  refine ⟨l.takeWhile isPyWS, ((l.dropWhile isPyWS).reverse.takeWhile isPyWS).reverse,
    ?_, fun c hc => List.mem_takeWhile_imp hc, fun c hc => ?_⟩
  · rw [List.append_assoc, hy, List.takeWhile_append_dropWhile]
  · rw [List.mem_reverse] at hc
    exact List.mem_takeWhile_imp hc

/-! ## Inversion facts for the matchers of rules 7, 8, 9 -/

theorem spaceMatch_eq_some {l : List Char} {pr : List Char × List Char}
    (h : spaceMatch l = some pr) :
    ∃ r, l = ' ' :: r ∧ pr = ([' '], r.dropWhile (· = ' ')) := by
  cases l with
  | nil => simp [spaceMatch] at h
  | cons c r =>
    simp only [spaceMatch] at h
    by_cases hc : c = ' '
    · rw [if_pos hc] at h
      cases h
      exact ⟨r, by rw [hc], rfl⟩
    · rw [if_neg hc] at h
      cases h

theorem breakMatch_eq_some {l : List Char} {pr : List Char × List Char}
    (h : breakMatch l = some pr) :
    ∃ r, l = '\n' :: '\n' :: '\n' :: r ∧ pr = (['\n', '\n'], r.dropWhile (· = '\n')) := by
  cases l with
  | nil => simp [breakMatch] at h
  | cons c1 t1 =>
    cases t1 with
    | nil => simp [breakMatch] at h
    | cons c2 t2 =>
      cases t2 with
      | nil => simp [breakMatch] at h
      | cons c3 r =>
        simp only [breakMatch] at h
        by_cases hc : (c1 = '\n' && c2 = '\n' && c3 = '\n') = true
        · rw [if_pos hc] at h
          cases h
          simp only [Bool.and_eq_true, decide_eq_true_eq] at hc
          obtain ⟨⟨rfl, rfl⟩, rfl⟩ := hc
          exact ⟨r, rfl, rfl⟩
        · rw [if_neg hc] at h
          cases h

theorem blankParaMatch_eq_some {l : List Char} {pr : List Char × List Char}
    (h : blankParaMatch l = some pr) :
    ∃ u r, l = '\n' :: '\n' :: u ∧ wsThen nn2 u = some r ∧ pr = (['\n', '\n'], r) := by
  cases l with
  | nil => simp [blankParaMatch] at h
  | cons c1 t1 =>
    cases t1 with
    | nil => simp [blankParaMatch] at h
    | cons c2 u =>
      simp only [blankParaMatch] at h
      by_cases hc : (c1 = '\n' && c2 = '\n') = true
      · rw [if_pos hc] at h
        simp only [Bool.and_eq_true, decide_eq_true_eq] at hc
        obtain ⟨rfl, rfl⟩ := hc
        rcases hw : wsThen nn2 u with _ | r
        · rw [hw] at h
          cases h
        · rw [hw] at h
          cases h
          exact ⟨u, r, rfl, hw, rfl⟩
      · rw [if_neg hc] at h
        cases h

/-! ## Head behaviour of the rule 7-9 passes -/

theorem sub_space_head (n : Nat) (l : List Char) :
    (sub spaceMatch n l).head? = l.head? := by
  cases n with
  | zero => rfl
  | succ n' =>
    cases l with
    | nil => rfl
    | cons c t =>
      rw [sub_cons]
      rcases hm : spaceMatch (c :: t) with _ | pr
      · rfl
      · obtain ⟨r, hl, rfl⟩ := spaceMatch_eq_some hm
        have : c = ' ' := by
          have := congrArg List.head? hl
          simpa using this
        simp [this]

theorem sub_break_head {n : Nat} {l : List Char} {c : Char}
    (h : (sub breakMatch n l).head? = some c) (hc : c ≠ '\n') :
    l.head? = some c := by
  cases n with
  | zero => exact h
  | succ n' =>
    cases l with
    | nil => simp [sub] at h
    | cons c0 t =>
      rw [sub_cons] at h
      rcases hm : breakMatch (c0 :: t) with _ | pr
      · rw [hm] at h
        exact h
      · rw [hm] at h
        obtain ⟨r, hl, rfl⟩ := breakMatch_eq_some hm
        simp only [List.cons_append, List.head?_cons, Option.some.injEq] at h
        exact absurd h.symm hc

theorem sub_break_head_nl {n : Nat} {l : List Char}
    (h : (sub breakMatch n l).head? = some '\n') : l.head? = some '\n' := by
  cases n with
  | zero => exact h
  | succ n' =>
    cases l with
    | nil => simp [sub] at h
    | cons c0 t =>
      rw [sub_cons] at h
      rcases hm : breakMatch (c0 :: t) with _ | pr
      · rw [hm] at h
        exact h
      · obtain ⟨r, hl, rfl⟩ := breakMatch_eq_some hm
        have := congrArg List.head? hl
        simpa using this

theorem sub_blank_head {n : Nat} {l : List Char} {c : Char}
    (h : (sub blankParaMatch n l).head? = some c) (hc : c ≠ '\n') :
    l.head? = some c := by
  cases n with
  | zero => exact h
  | succ n' =>
    cases l with
    | nil => simp [sub] at h
    | cons c0 t =>
      rw [sub_cons] at h
      rcases hm : blankParaMatch (c0 :: t) with _ | pr
      · rw [hm] at h
        exact h
      · rw [hm] at h
        obtain ⟨u, r, hl, hw, rfl⟩ := blankParaMatch_eq_some hm
        simp only [List.cons_append, List.head?_cons, Option.some.injEq] at h
        exact absurd h.symm hc

theorem sub_blank_head_nl {n : Nat} {l : List Char}
    (h : (sub blankParaMatch n l).head? = some '\n') : l.head? = some '\n' := by
  cases n with
  | zero => exact h
  | succ n' =>
    cases l with
    | nil => simp [sub] at h
    | cons c0 t =>
      rw [sub_cons] at h
      rcases hm : blankParaMatch (c0 :: t) with _ | pr
      · rw [hm] at h
        exact h
      · obtain ⟨u, r, hl, hw, rfl⟩ := blankParaMatch_eq_some hm
        have := congrArg List.head? hl
        simpa using this

/-! ## Splitting lemmas for `wsThen nn2` -/

theorem nn2_eq_some {y r : List Char} (h : nn2 y = some r) : y = '\n' :: '\n' :: r := by
  cases y with
  | nil => simp [nn2] at h
  | cons c1 t1 =>
    cases t1 with
    | nil => simp [nn2] at h
    | cons c2 u =>
      simp only [nn2] at h
      by_cases hc : (c1 = '\n' && c2 = '\n') = true
      · rw [if_pos hc] at h
        cases h
        simp only [Bool.and_eq_true, decide_eq_true_eq] at hc
        rw [hc.1, hc.2]
      · rw [if_neg hc] at h
        cases h

theorem wsThen_nn2_split :
    ∀ {x r : List Char}, wsThen nn2 x = some r →
      ∃ w, x = w ++ ['\n', '\n'] ++ r ∧ ∀ c ∈ w, isPyWS c = true := by
  intro x
  induction x with
  | nil =>
    intro r h
    have := nn2_eq_some (y := []) h
    simp at this
  | cons c t ih =>
    intro r h
    unfold wsThen at h
    by_cases hc : isPyWS c = true
    · rw [if_pos hc] at h
      rcases hw : wsThen nn2 t with _ | r'
      · rw [hw] at h
        exact ⟨[], by rw [nn2_eq_some h]; rfl, by simp⟩
      · rw [hw] at h
        cases h
        obtain ⟨w, rfl, hws⟩ := ih hw
        refine ⟨c :: w, rfl, ?_⟩
        intro d hd
        rcases List.mem_cons.mp hd with rfl | hd'
        · exact hc
        · exact hws d hd'
    · rw [if_neg hc] at h
      exact ⟨[], by rw [nn2_eq_some h]; rfl, by simp⟩

theorem blankParaMatch_rest {l rep rest : List Char}
    (h : blankParaMatch l = some (rep, rest)) : rest.length < l.length := by
  obtain ⟨u, r, rfl, hw, hpr⟩ := blankParaMatch_eq_some h
  cases hpr
  obtain ⟨w, rfl, -⟩ := wsThen_nn2_split hw
  simp only [List.length_cons, List.length_append]
  omega

theorem not_sw_nil : ¬ StartsWsNN [] := by
  rintro ⟨w, r, hab, -⟩
  have := congrArg List.length hab
  simp only [List.length_nil, List.length_append, List.length_cons] at this
  omega

theorem sw_wsThen_isSome {u : List Char} (h : StartsWsNN u) :
    (wsThen nn2 u).isSome = true := by
  obtain ⟨w, r, rfl, hw⟩ := h
  induction w with
  | nil =>
    show (wsThen nn2 ('\n' :: '\n' :: r)).isSome = true
    unfold wsThen
    rw [if_pos (by decide)]
    rcases hw2 : wsThen nn2 ('\n' :: r) with _ | r'
    · simp [nn2]
    · simp
  | cons c w' ih =>
    have hc : isPyWS c = true := hw c (List.mem_cons_self c _)
    show (wsThen nn2 (c :: (w' ++ ['\n', '\n'] ++ r))).isSome = true
    unfold wsThen
    rw [if_pos hc]
    rcases hw2 : wsThen nn2 (w' ++ ['\n', '\n'] ++ r) with _ | r'
    · exfalso
      have := ih (fun d hd => hw d (List.mem_cons_of_mem c hd))
      rw [hw2] at this
      simp at this
    · simp

/-- Greedy maximality of `\s*\n\n`: the remainder returned by
`wsThen nn2` neither starts with a line break nor contains a further
whitespace-prefixed double break at its start. -/
theorem wsThen_nn2_crit :
    ∀ {x r : List Char}, wsThen nn2 x = some r →
      r.head? ≠ some '\n' ∧ ¬ StartsWsNN r := by
  intro x
  induction x with
  | nil =>
    intro r h
    simp [wsThen, nn2] at h
  | cons c t ih =>
    intro r h
    unfold wsThen at h
    by_cases hc : isPyWS c = true
    · rw [if_pos hc] at h
      rcases hw : wsThen nn2 t with _ | r'
      · rw [hw] at h
        have hct := nn2_eq_some h
        rw [List.cons.injEq] at hct
        obtain ⟨rfl, ht⟩ := hct
        constructor
        · intro hr
          cases r with
          | nil => simp at hr
          | cons r0 r3 =>
            simp only [List.head?_cons, Option.some.injEq] at hr
            subst hr
            have hsw : StartsWsNN t := ⟨[], r3, by rw [ht]; rfl, by simp⟩
            have := sw_wsThen_isSome hsw
            rw [hw] at this
            simp at this
        · intro hsw
          obtain ⟨w2, r3, hreq, hw2⟩ := hsw
          have hswt : StartsWsNN t := by
            refine ⟨'\n' :: w2, r3, by rw [ht, hreq]; rfl, ?_⟩
            intro d hd
            rcases List.mem_cons.mp hd with rfl | hd'
            · decide
            · exact hw2 d hd'
          have := sw_wsThen_isSome hswt
          rw [hw] at this
          simp at this
      · rw [hw] at h
        cases h
        exact ih hw
    · rw [if_neg hc] at h
      have hct := nn2_eq_some h
      rw [List.cons.injEq] at hct
      obtain ⟨rfl, -⟩ := hct
      exact absurd (by decide) hc

/-- Rule 9 never creates a whitespace-prefixed double break at the
start: scanning preserves the absence of that shape. -/
theorem sub_blank_pres_not_sw :
    ∀ (n : Nat) (t : List Char), ¬ StartsWsNN t →
      ¬ StartsWsNN (sub blankParaMatch n t) := by
  intro n
  induction n with
  | zero => exact fun t h => h
  | succ n' ih =>
    intro t h
    cases t with
    | nil => exact not_sw_nil
    | cons c u =>
      rw [sub_cons]
      rcases hm : blankParaMatch (c :: u) with _ | pr
      · intro hsw
        obtain ⟨w2, r2, heq, hws⟩ := hsw
        cases w2 with
        | nil =>
          simp only [List.nil_append, List.cons_append, List.cons.injEq] at heq
          obtain ⟨rfl, hX⟩ := heq
          have hXh : (sub blankParaMatch n' u).head? = some '\n' := by
            rw [hX]
            rfl
          have hu := sub_blank_head_nl hXh
          cases u with
          | nil => simp at hu
          | cons u0 u' =>
            simp only [List.head?_cons, Option.some.injEq] at hu
            subst hu
            exact h ⟨[], u', rfl, by simp⟩
        | cons w0 w2' =>
          simp only [List.cons_append, List.cons.injEq] at heq
          obtain ⟨rfl, hX⟩ := heq
          have hnu : ¬ StartsWsNN u := by
            rintro ⟨a, b, hab, hb⟩
            refine h ⟨c :: a, b, by rw [hab]; rfl, ?_⟩
            intro d hd
            rcases List.mem_cons.mp hd with rfl | hd'
            · exact hws _ (List.mem_cons_self _ _)
            · exact hb d hd'
          exact ih u hnu ⟨w2', r2, hX, fun d hd =>
            hws d (List.mem_cons_of_mem c hd)⟩
      · obtain ⟨u₁, r, hl, hwsm, rfl⟩ := blankParaMatch_eq_some hm
        exact absurd ⟨[], u₁, hl, by simp⟩ h

/-- Rule 9 leaves no fully-blank paragraph: its output never contains
`\n\n`, whitespace, `\n\n`. -/
theorem subBlankParas_noBlankSeg :
    ∀ (n : Nat) (l : List Char), l.length ≤ n →
      NoBlankSeg (sub blankParaMatch n l) := by
  intro n
  induction n with
  | zero =>
    intro l hn
    have : l = [] := List.eq_nil_of_length_eq_zero (Nat.le_zero.mp hn)
    subst this
    exact noBlankSeg_nil
  | succ n' ih =>
    intro l hn
    cases l with
    | nil => exact noBlankSeg_nil
    | cons c t =>
      rw [sub_cons]
      rcases hm : blankParaMatch (c :: t) with _ | pr
      · -- copy step
        rintro ⟨a, w, b, heq, hws⟩
        cases a with
        | nil =>
          simp only [List.nil_append, List.cons_append, List.cons.injEq] at heq
          obtain ⟨rfl, hX⟩ := heq
          -- sub blankParaMatch n' t = '\n' :: (w ++ nlnl ++ b)
          have hXh : (sub blankParaMatch n' t).head? = some '\n' := by
            rw [hX]
            rfl
          have hth := sub_blank_head_nl hXh
          cases t with
          | nil => simp at hth
          | cons t0 t' =>
            simp only [List.head?_cons, Option.some.injEq] at hth
            subst hth
            -- the input starts '\n' '\n' but did not match: wsThen nn2 t' = none
            have hnone : wsThen nn2 t' = none := by
              rcases hw2 : wsThen nn2 t' with _ | r
              · rfl
              · exfalso
                have : blankParaMatch ('\n' :: '\n' :: t') =
                    some (['\n', '\n'], r) := by
                  simp only [blankParaMatch]
                  rw [if_pos (by decide), hw2]
                  rfl
                rw [this] at hm
                cases hm
            have hnsw : ¬ StartsWsNN t' := by
              intro hsw
              have := sw_wsThen_isSome hsw
              rw [hnone] at this
              simp at this
            -- t = '\n' :: t' cannot itself match at its head
            have hstep : sub blankParaMatch n' ('\n' :: t') =
                '\n' :: sub blankParaMatch (n' - 1) t' := by
              cases n' with
              | zero => simp at hn
              | succ n'' =>
                rw [sub_cons]
                rcases hm2 : blankParaMatch ('\n' :: t') with _ | pr2
                · rfl
                · exfalso
                  obtain ⟨u₂, r₂, hl₂, hws₂, rfl⟩ := blankParaMatch_eq_some hm2
                  rw [List.cons.injEq] at hl₂
                  obtain ⟨-, rfl⟩ := hl₂
                  -- wsThen nn2 ('\n' :: u₂) would then also be some, contra hnone
                  have : (wsThen nn2 ('\n' :: u₂)).isSome = true := by
                    unfold wsThen
                    rw [if_pos (by decide), hws₂]
                    simp
                  rw [hnone] at this
                  simp at this
            rw [hstep] at hX
            rw [List.cons.injEq] at hX
            obtain ⟨-, hX2⟩ := hX
            -- sub ... t' = w ++ nlnl ++ b, w whitespace: that is StartsWsNN
            exact sub_blank_pres_not_sw (n' - 1) t' hnsw ⟨w, b, hX2, hws⟩
        | cons a0 a' =>
          simp only [List.cons_append, List.cons.injEq] at heq
          obtain ⟨rfl, hX⟩ := heq
          exact ih t (by simpa using hn) ⟨a', w, b, hX, hws⟩
      · -- match step
        obtain ⟨u₁, r, hl, hwsm, rfl⟩ := blankParaMatch_eq_some hm
        have hcrit := wsThen_nn2_crit hwsm
        rintro ⟨a, w, b, heq, hws⟩
        have hrl : r.length < (c :: t).length := blankParaMatch_rest hm
        cases a with
        | nil =>
          simp only [List.nil_append, List.cons_append, List.cons.injEq] at heq
          obtain ⟨-, -, hX⟩ := heq
          exact sub_blank_pres_not_sw n' r hcrit.2 ⟨w, b, hX, hws⟩
        | cons a0 a' =>
          cases a' with
          | nil =>
            simp only [List.cons_append, List.nil_append, List.cons.injEq] at heq
            obtain ⟨-, -, hX⟩ := heq
            -- sub ... r = '\n' :: (w ++ nlnl ++ b): its head is '\n'
            have hXh : (sub blankParaMatch n' r).head? = some '\n' := by
              rw [hX]
              rfl
            have := sub_blank_head_nl hXh
            exact hcrit.1 this
          | cons a1 a'' =>
            simp only [List.cons_append, List.cons.injEq] at heq
            obtain ⟨-, -, hX⟩ := heq
            exact ih r (by simp only [List.length_cons] at hn hrl ⊢; omega)
              ⟨a'', w, b, hX, hws⟩

/-! ## Rule 7 output: no double spaces; rules 8-10 preserve that -/

theorem subSpaces_noTwoSpaces :
    ∀ (n : Nat) (l : List Char), l.length ≤ n → NoTwoSpaces (sub spaceMatch n l) := by
  intro n
  induction n with
  | zero =>
    intro l hn
    have : l = [] := List.eq_nil_of_length_eq_zero (Nat.le_zero.mp hn)
    subst this
    exact noTwoSpaces_nil
  | succ n' ih =>
    intro l hn
    cases l with
    | nil => exact noTwoSpaces_nil
    | cons c t =>
      rw [sub_cons]
      rcases hm : spaceMatch (c :: t) with _ | pr
      · have hc : c ≠ ' ' := by
          intro hcc
          subst hcc
          simp [spaceMatch] at hm
        exact noTwoSpaces_cons (fun h => absurd h hc) (ih t (by simpa using hn))
      · obtain ⟨r, hl, rfl⟩ := spaceMatch_eq_some hm
        rw [List.cons.injEq] at hl
        obtain ⟨rfl, rfl⟩ := hl
        show NoTwoSpaces (' ' :: sub spaceMatch n' (t.dropWhile (· = ' ')))
        refine noTwoSpaces_cons ?_
          (ih _ (le_trans (List.dropWhile_suffix _).length_le (by simpa using hn)))
        intro _ hhd
        rw [sub_space_head] at hhd
        have := dropWhile_head_not hhd
        simp at this

theorem subBreaks_pres_noTwoSpaces :
    ∀ (n : Nat) (l : List Char), l.length ≤ n → NoTwoSpaces l →
      NoTwoSpaces (sub breakMatch n l) := by
  intro n
  induction n with
  | zero =>
    intro l hn h
    have : l = [] := List.eq_nil_of_length_eq_zero (Nat.le_zero.mp hn)
    subst this
    exact noTwoSpaces_nil
  | succ n' ih =>
    intro l hn h
    cases l with
    | nil => exact noTwoSpaces_nil
    | cons c t =>
      rw [sub_cons]
      rcases hm : breakMatch (c :: t) with _ | pr
      · refine noTwoSpaces_cons ?_ (ih t (by simpa using hn) (noTwoSpaces_cons_of h))
        intro hc hhd
        subst hc
        rcases hX : (sub breakMatch n' t).head? with _ | x
        · rw [hX] at hhd
          cases hhd
        · rw [hX] at hhd
          cases hhd
          have := sub_break_head hX (by decide)
          cases t with
          | nil => simp at this
          | cons t0 t' =>
            simp only [List.head?_cons, Option.some.injEq] at this
            subst this
            exact h ⟨[], t', rfl⟩
      · obtain ⟨r, hl, rfl⟩ := breakMatch_eq_some hm
        rw [List.cons.injEq] at hl
        obtain ⟨rfl, rfl⟩ := hl
        show NoTwoSpaces ('\n' :: '\n' :: sub breakMatch n' (r.dropWhile (· = '\n')))
        have hrest : NoTwoSpaces (r.dropWhile (· = '\n')) := by
          have h2 : NoTwoSpaces
              ('\n' :: '\n' :: '\n' ::
                (r.takeWhile (· = '\n') ++ r.dropWhile (· = '\n'))) := by
            rw [List.takeWhile_append_dropWhile]
            exact h
          refine noTwoSpaces_infix
            (p := '\n' :: '\n' :: '\n' :: r.takeWhile (· = '\n')) (q := []) ?_
          simpa [List.append_assoc] using h2
        have hlen : (r.dropWhile (· = '\n')).length ≤ n' := by
          have h1 : (r.dropWhile (· = '\n')).length ≤ r.length :=
            (List.dropWhile_suffix _).length_le
          simp only [List.length_cons] at hn
          omega
        refine noTwoSpaces_cons (fun hc => by cases hc) ?_
        refine noTwoSpaces_cons (fun hc => by cases hc) ?_
        exact ih _ hlen hrest

theorem subBlankParas_pres_noTwoSpaces :
    ∀ (n : Nat) (l : List Char), l.length ≤ n → NoTwoSpaces l →
      NoTwoSpaces (sub blankParaMatch n l) := by
  intro n
  induction n with
  | zero =>
    intro l hn h
    have : l = [] := List.eq_nil_of_length_eq_zero (Nat.le_zero.mp hn)
    subst this
    exact noTwoSpaces_nil
  | succ n' ih =>
    intro l hn h
    cases l with
    | nil => exact noTwoSpaces_nil
    | cons c t =>
      rw [sub_cons]
      rcases hm : blankParaMatch (c :: t) with _ | pr
      · refine noTwoSpaces_cons ?_ (ih t (by simpa using hn) (noTwoSpaces_cons_of h))
        intro hc hhd
        subst hc
        rcases hX : (sub blankParaMatch n' t).head? with _ | x
        · rw [hX] at hhd
          cases hhd
        · rw [hX] at hhd
          cases hhd
          have := sub_blank_head hX (by decide)
          cases t with
          | nil => simp at this
          | cons t0 t' =>
            simp only [List.head?_cons, Option.some.injEq] at this
            subst this
            exact h ⟨[], t', rfl⟩
      · obtain ⟨u, r, hl, hwsm, rfl⟩ := blankParaMatch_eq_some hm
        rw [List.cons.injEq] at hl
        obtain ⟨rfl, rfl⟩ := hl
        show NoTwoSpaces ('\n' :: '\n' :: sub blankParaMatch n' r)
        obtain ⟨w, rfl, -⟩ := wsThen_nn2_split hwsm
        have hrest : NoTwoSpaces r := by
          refine noTwoSpaces_infix (p := '\n' :: '\n' :: (w ++ ['\n', '\n'])) (q := []) ?_
          simpa [List.append_assoc] using h
        have hlen : r.length ≤ n' := by
          simp only [List.length_cons, List.length_append] at hn
          omega
        refine noTwoSpaces_cons (fun hc => by cases hc) ?_
        refine noTwoSpaces_cons (fun hc => by cases hc) ?_
        exact ih _ hlen hrest

/-! ## Rule 8 output: no triple breaks; rule 9 preserves that -/

theorem sub_break_take2 :
    ∀ {n : Nat} {t r : List Char}, sub breakMatch n t = '\n' :: '\n' :: r →
      ∃ t', t = '\n' :: '\n' :: t' := by
  intro n t r h
  cases n with
  | zero => exact ⟨r, h⟩
  | succ n' =>
    cases t with
    | nil => simp [sub] at h
    | cons c u =>
      rw [sub_cons] at h
      rcases hm : breakMatch (c :: u) with _ | pr
      · rw [hm] at h
        rw [List.cons.injEq] at h
        obtain ⟨rfl, hX⟩ := h
        have hXh : (sub breakMatch n' u).head? = some '\n' := by
          rw [hX]
          rfl
        have hu := sub_break_head_nl hXh
        cases u with
        | nil => simp at hu
        | cons u0 u' =>
          simp only [List.head?_cons, Option.some.injEq] at hu
          subst hu
          exact ⟨u', rfl⟩
      · obtain ⟨r0, hl, rfl⟩ := breakMatch_eq_some hm
        exact ⟨'\n' :: r0, hl⟩

theorem sub_blank_take2 :
    ∀ {n : Nat} {t r : List Char}, sub blankParaMatch n t = '\n' :: '\n' :: r →
      ∃ t', t = '\n' :: '\n' :: t' := by
  intro n t r h
  cases n with
  | zero => exact ⟨r, h⟩
  | succ n' =>
    cases t with
    | nil => simp [sub] at h
    | cons c u =>
      rw [sub_cons] at h
      rcases hm : blankParaMatch (c :: u) with _ | pr
      · rw [hm] at h
        rw [List.cons.injEq] at h
        obtain ⟨rfl, hX⟩ := h
        have hXh : (sub blankParaMatch n' u).head? = some '\n' := by
          rw [hX]
          rfl
        have hu := sub_blank_head_nl hXh
        cases u with
        | nil => simp at hu
        | cons u0 u' =>
          simp only [List.head?_cons, Option.some.injEq] at hu
          subst hu
          exact ⟨u', rfl⟩
      · obtain ⟨u₁, r₁, hl, hwsm, rfl⟩ := blankParaMatch_eq_some hm
        exact ⟨u₁, hl⟩

theorem subBreaks_noTriple :
    ∀ (n : Nat) (l : List Char), l.length ≤ n → NoTriple (sub breakMatch n l) := by
  intro n
  induction n with
  | zero =>
    intro l hn
    have : l = [] := List.eq_nil_of_length_eq_zero (Nat.le_zero.mp hn)
    subst this
    exact noTriple_nil
  | succ n' ih =>
    intro l hn
    cases l with
    | nil => exact noTriple_nil
    | cons c t =>
      rw [sub_cons]
      rcases hm : breakMatch (c :: t) with _ | pr
      · rintro ⟨a, b, heq⟩
        cases a with
        | nil =>
          simp only [List.nil_append, List.cons_append, List.cons.injEq] at heq
          obtain ⟨rfl, hX⟩ := heq
          obtain ⟨t', rfl⟩ := sub_break_take2 hX
          have : breakMatch ('\n' :: '\n' :: '\n' :: t') ≠ none := by
            simp [breakMatch]
          exact this hm
        | cons a0 a' =>
          simp only [List.cons_append, List.cons.injEq] at heq
          exact ih t (by simpa using hn) ⟨a', b, heq.2⟩
      · obtain ⟨r, hl, rfl⟩ := breakMatch_eq_some hm
        rw [List.cons.injEq] at hl
        obtain ⟨rfl, rfl⟩ := hl
        show NoTriple ('\n' :: '\n' :: sub breakMatch n' (r.dropWhile (· = '\n')))
        have hhd : ∀ x, (sub breakMatch n' (r.dropWhile (· = '\n'))).head? = some x →
            x ≠ '\n' := by
          intro x hx hxe
          subst hxe
          have := sub_break_head_nl hx
          have h2 := dropWhile_head_not this
          simp at h2
        rintro ⟨a, b, heq⟩
        cases a with
        | nil =>
          simp only [List.nil_append, List.cons_append, List.cons.injEq] at heq
          obtain ⟨-, -, hX⟩ := heq
          exact hhd '\n' (by rw [hX]; rfl) rfl
        | cons a0 a' =>
          cases a' with
          | nil =>
            simp only [List.cons_append, List.nil_append, List.cons.injEq] at heq
            obtain ⟨-, -, hX⟩ := heq
            exact hhd '\n' (by rw [hX]; rfl) rfl
          | cons a1 a'' =>
            simp only [List.cons_append, List.cons.injEq] at heq
            refine ih _ ?_ ⟨a'', b, heq.2.2⟩
            have h1 : (r.dropWhile (· = '\n')).length ≤ r.length :=
              (List.dropWhile_suffix _).length_le
            simp only [List.length_cons] at hn
            omega

theorem subBlankParas_pres_noTriple :
    ∀ (n : Nat) (l : List Char), l.length ≤ n → NoTriple l →
      NoTriple (sub blankParaMatch n l) := by
  intro n
  induction n with
  | zero =>
    intro l hn h
    have : l = [] := List.eq_nil_of_length_eq_zero (Nat.le_zero.mp hn)
    subst this
    exact noTriple_nil
  | succ n' ih =>
    intro l hn h
    cases l with
    | nil => exact noTriple_nil
    | cons c t =>
      rw [sub_cons]
      rcases hm : blankParaMatch (c :: t) with _ | pr
      · rintro ⟨a, b, heq⟩
        cases a with
        | nil =>
          simp only [List.nil_append, List.cons_append, List.cons.injEq] at heq
          obtain ⟨rfl, hX⟩ := heq
          obtain ⟨t', rfl⟩ := sub_blank_take2 hX
          exact h ⟨[], t', rfl⟩
        | cons a0 a' =>
          simp only [List.cons_append, List.cons.injEq] at heq
          exact ih t (by simpa using hn) (noTriple_cons_of h) ⟨a', b, heq.2⟩
      · obtain ⟨u, r, hl, hwsm, rfl⟩ := blankParaMatch_eq_some hm
        rw [List.cons.injEq] at hl
        obtain ⟨rfl, rfl⟩ := hl
        show NoTriple ('\n' :: '\n' :: sub blankParaMatch n' r)
        have hcrit := wsThen_nn2_crit hwsm
        have hhd : ∀ x, (sub blankParaMatch n' r).head? = some x → x ≠ '\n' := by
          intro x hx hxe
          subst hxe
          exact hcrit.1 (sub_blank_head_nl hx)
        obtain ⟨w, rfl, -⟩ := wsThen_nn2_split hwsm
        have hrest : NoTriple r := by
          refine noTriple_infix (p := '\n' :: '\n' :: (w ++ ['\n', '\n'])) (q := []) ?_
          simpa [List.append_assoc] using h
        have hlen : r.length ≤ n' := by
          simp only [List.length_cons, List.length_append] at hn
          omega
        rintro ⟨a, b, heq⟩
        cases a with
        | nil =>
          simp only [List.nil_append, List.cons_append, List.cons.injEq] at heq
          obtain ⟨-, -, hX⟩ := heq
          exact hhd '\n' (by rw [hX]; rfl) rfl
        | cons a0 a' =>
          cases a' with
          | nil =>
            simp only [List.cons_append, List.nil_append, List.cons.injEq] at heq
            obtain ⟨-, -, hX⟩ := heq
            exact hhd '\n' (by rw [hX]; rfl) rfl
          | cons a1 a'' =>
            simp only [List.cons_append, List.cons.injEq] at heq
            exact ih _ hlen hrest ⟨a'', b, heq.2.2⟩

/-! ## Membership: each pass only keeps input characters or inserts
spaces and line breaks -/

theorem sub_mem_chars (m : List Char → Option (List Char × List Char)) (extras : List Char)
    (hrep : ∀ l rep rest, m l = some (rep, rest) →
      (∀ c ∈ rep, c ∈ l ∨ c ∈ extras) ∧ (∀ c ∈ rest, c ∈ l)) :
    ∀ (n : Nat) (l : List Char) (c : Char), c ∈ sub m n l → c ∈ l ∨ c ∈ extras := by
  intro n
  induction n with
  | zero => exact fun l c hc => Or.inl hc
  | succ n' ih =>
    intro l c hc
    cases l with
    | nil => simp [sub] at hc
    | cons c0 t =>
      rw [sub_cons] at hc
      rcases hm : m (c0 :: t) with _ | ⟨rep, rest⟩
      · rw [hm] at hc
        rcases List.mem_cons.mp hc with rfl | hc'
        · exact Or.inl (List.mem_cons_self _ _)
        · rcases ih t c hc' with h | h
          · exact Or.inl (List.mem_cons_of_mem _ h)
          · exact Or.inr h
      · rw [hm] at hc
        rcases List.mem_append.mp hc with h | h
        · exact (hrep _ _ _ hm).1 c h
        · rcases ih rest c h with h2 | h2
          · exact Or.inl ((hrep _ _ _ hm).2 c h2)
          · exact Or.inr h2

theorem ciMatchPfx_subset :
    ∀ {pat l r : List Char}, ciMatchPfx pat l = some r → ∀ c ∈ r, c ∈ l := by
  intro pat
  induction pat with
  | nil =>
    intro l r h
    simp only [ciMatchPfx, Option.some.injEq] at h
    subst h
    exact fun c hc => hc
  | cons p ps ih =>
    intro l r h
    cases l with
    | nil => simp [ciMatchPfx] at h
    | cons c0 cs =>
      simp only [ciMatchPfx] at h
      by_cases hp : ciEq p c0 = true
      · rw [if_pos hp] at h
        exact fun c hc => List.mem_cons_of_mem _ (ih h c hc)
      · rw [if_neg hp] at h
        cases h

theorem eolOpt_subset (x : List Char) : ∀ c ∈ eolOpt x, c ∈ x := by
  cases x with
  | nil => simp [eolOpt]
  | cons c0 r =>
    by_cases hc0 : c0 = '.'
    · simp only [eolOpt, if_pos hc0]
      exact fun c hc =>
        List.mem_cons_of_mem _ ((List.dropWhile_suffix _).subset hc)
    · simp only [eolOpt, if_neg hc0]
      exact fun c hc => hc

theorem eolLook_subset {x rest : List Char} (h : eolLook x = some rest) :
    ∀ c ∈ rest, c ∈ x := by
  cases x with
  | nil =>
    simp only [eolLook, Option.some.injEq] at h
    subst h
    simp
  | cons c0 r =>
    simp only [eolLook] at h
    by_cases hc0 : c0 = '\n'
    · rw [if_pos hc0] at h
      cases h
      exact fun c hc => hc
    · rw [if_neg hc0] at h
      cases h

theorem eolTail_subset {l rest : List Char} (h : eolTail l = some rest) :
    ∀ c ∈ rest, c ∈ l := by
  unfold eolTail at h
  intro c hc
  exact (List.dropWhile_suffix _).subset
    (eolOpt_subset _ c (eolLook_subset h c hc))

theorem markerMatch_inv :
    ∀ {markers : List (List Char)} {l : List Char} {rep rest : List Char},
      markerMatch markers l = some (rep, rest) →
      rep = [] ∧ ∀ c ∈ rest, c ∈ l := by
  intro markers
  induction markers with
  | nil => intro l rep rest h; simp [markerMatch] at h
  | cons mk mks ih =>
    intro l rep rest h
    simp only [markerMatch] at h
    rcases hp : ciMatchPfx mk l with _ | r
    · rw [hp] at h
      exact ih h
    · rw [hp] at h
      replace h :
          (match eolTail r with
          | some rest => some (([] : List Char), rest)
          | none => markerMatch mks l) = some (rep, rest) := h
      rcases he : eolTail r with _ | rest'
      · rw [he] at h
        exact ih h
      · rw [he] at h
        cases h
        exact ⟨rfl, fun c hc =>
          ciMatchPfx_subset hp c (eolTail_subset he c hc)⟩

theorem dateParenMatch_inv {l rep rest : List Char}
    (h : dateParenMatch l = some (rep, rest)) :
    rep = [] ∧ ∀ c ∈ rest, c ∈ l := by
  cases l with
  | nil => simp [dateParenMatch] at h
  | cons c0 r =>
    simp only [dateParenMatch] at h
    by_cases h0 : c0 = '('
    · rw [if_pos h0] at h
      by_cases h4 : ((r.take 4).length = 4 && (r.take 4).all Char.isDigit) = true
      · rw [if_pos h4] at h
        rcases hd4 : r.drop 4 with _ | ⟨c1, r2⟩
        · rw [hd4] at h
          cases h
        · rw [hd4] at h
          replace h :
              (if c1 = '.' then
                if ((r2.dropWhile isPyWS).takeWhile isIVX).isEmpty = true then none
                else
                  match (r2.dropWhile isPyWS).dropWhile isIVX with
                  | c2 :: r4 =>
                    if c2 = '.' then
                      if ((r4.dropWhile isPyWS).takeWhile Char.isDigit).isEmpty = true
                      then none
                      else
                        match (r4.dropWhile isPyWS).dropWhile Char.isDigit with
                        | c3 :: r6 =>
                          if c3 = '-' then
                            if (r6.takeWhile hunLetterCI).isEmpty = true then none
                            else
                              match r6.dropWhile hunLetterCI with
                              | c4 :: c5 :: r7 =>
                                if c4 = '.' && c5 = ')' then some ([], r7) else none
                              | _ => none
                          else none
                        | [] => none
                    else none
                  | [] => none
              else none) = some (rep, rest) := h
          have hsub2 : ∀ c ∈ r2, c ∈ c0 :: r := fun c hc =>
            List.mem_cons_of_mem _
              ((List.drop_subset 4 r) (hd4 ▸ List.mem_cons_of_mem c1 hc))
          by_cases hc1 : c1 = '.'
          · rw [if_pos hc1] at h
            by_cases hiv : ((r2.dropWhile isPyWS).takeWhile isIVX).isEmpty = true
            · rw [if_pos hiv] at h
              cases h
            · rw [if_neg hiv] at h
              have hsub4base : ∀ c ∈ (r2.dropWhile isPyWS).dropWhile isIVX, c ∈ r2 :=
                fun c hc => (List.dropWhile_suffix _).subset
                  ((List.dropWhile_suffix _).subset hc)
              rcases hr4 : (r2.dropWhile isPyWS).dropWhile isIVX with _ | ⟨c2, r4⟩
              · rw [hr4] at h
                cases h
              · rw [hr4] at h
                replace h :
                    (if c2 = '.' then
                      if ((r4.dropWhile isPyWS).takeWhile Char.isDigit).isEmpty = true
                      then none
                      else
                        match (r4.dropWhile isPyWS).dropWhile Char.isDigit with
                        | c3 :: r6 =>
                          if c3 = '-' then
                            if (r6.takeWhile hunLetterCI).isEmpty = true then none
                            else
                              match r6.dropWhile hunLetterCI with
                              | c4 :: c5 :: r7 =>
                                if c4 = '.' && c5 = ')' then some ([], r7) else none
                              | _ => none
                          else none
                        | [] => none
                    else none) = some (rep, rest) := h
                have hsub4 : ∀ c ∈ r4, c ∈ r2 := fun c hc =>
                  hsub4base c (hr4 ▸ List.mem_cons_of_mem c2 hc)
                by_cases hc2 : c2 = '.'
                · rw [if_pos hc2] at h
                  by_cases hdg : ((r4.dropWhile isPyWS).takeWhile Char.isDigit).isEmpty = true
                  · rw [if_pos hdg] at h
                    cases h
                  · rw [if_neg hdg] at h
                    have hsub6base :
                        ∀ c ∈ (r4.dropWhile isPyWS).dropWhile Char.isDigit, c ∈ r4 :=
                      fun c hc => (List.dropWhile_suffix _).subset
                        ((List.dropWhile_suffix _).subset hc)
                    rcases hr6 : (r4.dropWhile isPyWS).dropWhile Char.isDigit
                      with _ | ⟨c3, r6⟩
                    · rw [hr6] at h
                      cases h
                    · rw [hr6] at h
                      replace h :
                          (if c3 = '-' then
                            if (r6.takeWhile hunLetterCI).isEmpty = true then none
                            else
                              match r6.dropWhile hunLetterCI with
                              | c4 :: c5 :: r7 =>
                                if c4 = '.' && c5 = ')' then some ([], r7) else none
                              | _ => none
                          else none) = some (rep, rest) := h
                      have hsub6 : ∀ c ∈ r6, c ∈ r4 := fun c hc =>
                        hsub6base c (hr6 ▸ List.mem_cons_of_mem c3 hc)
                      by_cases hc3 : c3 = '-'
                      · rw [if_pos hc3] at h
                        by_cases hlt : (r6.takeWhile hunLetterCI).isEmpty = true
                        · rw [if_pos hlt] at h
                          cases h
                        · rw [if_neg hlt] at h
                          rcases hr7 : r6.dropWhile hunLetterCI with _ | ⟨c4, t7⟩
                          · rw [hr7] at h
                            cases h
                          · rcases t7 with _ | ⟨c5, r7⟩
                            · rw [hr7] at h
                              cases h
                            · rw [hr7] at h
                              replace h :
                                  (if c4 = '.' && c5 = ')' then some (([] : List Char), r7)
                                  else none) = some (rep, rest) := h
                              by_cases hc45 : (c4 = '.' && c5 = ')') = true
                              · rw [if_pos hc45] at h
                                cases h
                                refine ⟨rfl, fun c hc => ?_⟩
                                have : c ∈ r6 := (List.dropWhile_suffix hunLetterCI).subset
                                  (hr7 ▸ List.mem_cons_of_mem c4
                                    (List.mem_cons_of_mem c5 hc))
                                exact hsub2 c (hsub4 c (hsub6 c this))
                              · rw [if_neg hc45] at h
                                cases h
                      · rw [if_neg hc3] at h
                        cases h
                · rw [if_neg hc2] at h
                  cases h
          · rw [if_neg hc1] at h
            cases h
      · rw [if_neg h4] at h
        cases h
    · rw [if_neg h0] at h
      cases h

theorem paraNumMatch_memfacts (l rep rest : List Char)
    (h : paraNumMatch l = some (rep, rest)) :
    (∀ c ∈ rep, c ∈ l ∨ c ∈ [' ', '\n']) ∧ ∀ c ∈ rest, c ∈ l := by
  cases l with
  | nil => simp [paraNumMatch] at h
  | cons c0 r =>
    simp only [paraNumMatch] at h
    by_cases h0 : c0 = '('
    · rw [if_pos h0] at h
      by_cases hds : (r.takeWhile Char.isDigit).isEmpty = true
      · rw [if_pos hds] at h
        cases h
      · rw [if_neg hds] at h
        rcases hdw : r.dropWhile Char.isDigit with _ | ⟨c1, r2⟩
        · rw [hdw] at h
          cases h
        · rw [hdw] at h
          replace h :
              (if c1 = ')' then
                match wsThen nn2plus r2 with
                | some r3 => some ('(' :: List.takeWhile Char.isDigit r ++ [')', ' '], r3)
                | none => none
              else none) = some (rep, rest) := h
          by_cases h1 : c1 = ')'
          · rw [if_pos h1] at h
            rcases hws : wsThen nn2plus r2 with _ | r3
            · rw [hws] at h
              cases h
            · rw [hws] at h
              cases h
              have hr2sub : ∀ c ∈ r2, c ∈ c0 :: r := fun c hc =>
                List.mem_cons_of_mem _ ((List.dropWhile_suffix Char.isDigit).subset
                  (hdw ▸ List.mem_cons_of_mem c1 hc))
              constructor
              · intro c hc
                rcases List.mem_cons.mp hc with rfl | hc2
                · exact Or.inl (h0 ▸ List.mem_cons_self _ _)
                · rcases List.mem_append.mp hc2 with hc3 | hc3
                  · refine Or.inl (List.mem_cons_of_mem _ ?_)
                    rw [← List.takeWhile_append_dropWhile (p := Char.isDigit) (l := r)]
                    exact List.mem_append_left _ hc3
                  · rcases List.mem_cons.mp hc3 with rfl | hc4
                    · refine Or.inl (List.mem_cons_of_mem _ ?_)
                      rw [← List.takeWhile_append_dropWhile (p := Char.isDigit) (l := r),
                        hdw]
                      exact List.mem_append_right _ (h1 ▸ List.mem_cons_self _ _)
                    · simp only [List.mem_singleton] at hc4
                      subst hc4
                      exact Or.inr (by simp)
              · intro c hc
                obtain ⟨u, hu, -, -⟩ :=
                  wsThen_decomp (fun y rr hy => nn2plus_decomp hy) r2 rest hws
                exact hr2sub c (hu ▸ List.mem_append_right u hc)
          · rw [if_neg h1] at h
            cases h
    · rw [if_neg h0] at h
      cases h

theorem spaceMatch_memfacts (l rep rest : List Char)
    (h : spaceMatch l = some (rep, rest)) :
    (∀ c ∈ rep, c ∈ l ∨ c ∈ [' ', '\n']) ∧ ∀ c ∈ rest, c ∈ l := by
  obtain ⟨r, rfl, hpr⟩ := spaceMatch_eq_some h
  cases hpr
  constructor
  · intro c hc
    simp only [List.mem_singleton] at hc
    subst hc
    exact Or.inl (List.mem_cons_self _ _)
  · exact fun c hc => List.mem_cons_of_mem _ ((List.dropWhile_suffix _).subset hc)

theorem breakMatch_memfacts (l rep rest : List Char)
    (h : breakMatch l = some (rep, rest)) :
    (∀ c ∈ rep, c ∈ l ∨ c ∈ [' ', '\n']) ∧ ∀ c ∈ rest, c ∈ l := by
  obtain ⟨r, rfl, hpr⟩ := breakMatch_eq_some h
  cases hpr
  constructor
  · intro c hc
    rcases List.mem_cons.mp hc with rfl | hc2
    · exact Or.inr (by simp)
    · simp only [List.mem_singleton] at hc2
      subst hc2
      exact Or.inr (by simp)
  · exact fun c hc => List.mem_cons_of_mem _ (List.mem_cons_of_mem _
      (List.mem_cons_of_mem _ ((List.dropWhile_suffix _).subset hc)))

theorem blankParaMatch_memfacts (l rep rest : List Char)
    (h : blankParaMatch l = some (rep, rest)) :
    (∀ c ∈ rep, c ∈ l ∨ c ∈ [' ', '\n']) ∧ ∀ c ∈ rest, c ∈ l := by
  obtain ⟨u, r, rfl, hwsm, hpr⟩ := blankParaMatch_eq_some h
  cases hpr
  constructor
  · intro c hc
    rcases List.mem_cons.mp hc with rfl | hc2
    · exact Or.inr (by simp)
    · simp only [List.mem_singleton] at hc2
      subst hc2
      exact Or.inr (by simp)
  · intro c hc
    obtain ⟨w, hu, -⟩ := wsThen_nn2_split hwsm
    exact List.mem_cons_of_mem _ (List.mem_cons_of_mem _
      (hu ▸ List.mem_append_right _ hc))

theorem markerMatch_memfacts (markers : List (List Char)) (l rep rest : List Char)
    (h : markerMatch markers l = some (rep, rest)) :
    (∀ c ∈ rep, c ∈ l ∨ c ∈ [' ', '\n']) ∧ ∀ c ∈ rest, c ∈ l := by
  obtain ⟨hrep, hrest⟩ := markerMatch_inv h
  subst hrep
  exact ⟨by simp, hrest⟩

theorem dateParenMatch_memfacts (l rep rest : List Char)
    (h : dateParenMatch l = some (rep, rest)) :
    (∀ c ∈ rep, c ∈ l ∨ c ∈ [' ', '\n']) ∧ ∀ c ∈ rest, c ∈ l := by
  obtain ⟨hrep, hrest⟩ := dateParenMatch_inv h
  subst hrep
  exact ⟨by simp, hrest⟩

theorem rule5Go_subset (cls : Char → Bool) :
    ∀ (n : Nat) (prev : Option Char) (l : List Char) (c : Char),
      c ∈ rule5Go cls n prev l → c ∈ l := by
  intro n
  induction n with
  | zero => exact fun prev l c hc => hc
  | succ n' ih =>
    intro prev l c hc
    cases l with
    | nil => simp [rule5Go] at hc
    | cons c0 t =>
      rw [rule5Go_cons] at hc
      by_cases hp : prevIs cls prev = true
      · rw [hp] at hc
        simp only [if_true] at hc
        rcases hm : m5 (c0 :: t) with _ | ⟨ds, rest⟩
        · rw [hm] at hc
          rcases List.mem_cons.mp hc with rfl | hc'
          · exact List.mem_cons_self _ _
          · exact List.mem_cons_of_mem _ (ih _ t c hc')
        · rw [hm] at hc
          have hrest : rest = (c0 :: t).drop (ds.length) := by
            unfold m5 at hm
            rcases h3 : take5 3 (c0 :: t) with _ | p3
            · rcases h2 : take5 2 (c0 :: t) with _ | p2
              · rcases h1 : take5 1 (c0 :: t) with _ | p1
                · simp [h3, h2, h1, Option.orElse] at hm
                · simp only [h3, h2, h1, Option.orElse] at hm
                  cases hm
                  obtain ⟨hds, hdr, hk⟩ := take5_eq_some h1
                  have hds' : ds = List.take 1 (c0 :: t) := hds
                  have hdr' : rest = List.drop 1 (c0 :: t) := hdr
                  rw [hdr', hds', List.length_take]
                  congr 1
                  omega
              · simp only [h3, h2, Option.orElse] at hm
                cases hm
                obtain ⟨hds, hdr, hk⟩ := take5_eq_some h2
                have hds' : ds = List.take 2 (c0 :: t) := hds
                have hdr' : rest = List.drop 2 (c0 :: t) := hdr
                rw [hdr', hds', List.length_take]
                congr 1
                omega
            · simp only [h3, Option.orElse] at hm
              cases hm
              obtain ⟨hds, hdr, hk⟩ := take5_eq_some h3
              have hds' : ds = List.take 3 (c0 :: t) := hds
              have hdr' : rest = List.drop 3 (c0 :: t) := hdr
              rw [hdr', hds', List.length_take]
              congr 1
              omega
          exact (List.drop_subset _ _) (hrest ▸ ih _ rest c hc)
      · rw [Bool.not_eq_true] at hp
        rw [hp] at hc
        simp only [Bool.false_eq_true, if_false] at hc
        rcases List.mem_cons.mp hc with rfl | hc'
        · exact List.mem_cons_self _ _
        · exact List.mem_cons_of_mem _ (ih _ t c hc')

theorem foldl_filter_mem :
    ∀ (ds l : List Char) (c : Char),
      c ∈ ds.foldl (fun acc d => acc.filter (· ≠ d)) l → c ∈ l ∧ c ∉ ds := by
  intro ds
  induction ds with
  | nil => exact fun l c hc => ⟨hc, by simp⟩
  | cons d ds' ih =>
    intro l c hc
    rw [List.foldl_cons] at hc
    obtain ⟨hmem, hnot⟩ := ih _ c hc
    rw [List.mem_filter] at hmem
    refine ⟨hmem.1, ?_⟩
    intro hin
    rcases List.mem_cons.mp hin with rfl | hin'
    · simp at hmem
    · exact hnot hin'

theorem pyStrip_subset (l : List Char) : ∀ c ∈ pyStrip l, c ∈ l := by
  intro c hc
  obtain ⟨p, q, heq, -, -⟩ := pyStrip_decomp l
  rw [heq]
  exact List.mem_append_left _ (List.mem_append_right _ hc)

/-- The normalizer's output contains no superscript digit: rule 1
removes them all, and every later rule only keeps input characters or
inserts spaces and line breaks. -/
theorem cleanTextL_noSuper (l : List Char) : NoSuper (cleanTextL l) := by
  intro c hc
  have h1 : ∀ x (c : Char), c ∈ subLasd x → c ∈ x ∨ c ∈ [' ', '\n'] :=
    fun x c hc => sub_mem_chars _ [' ', '\n']
      (fun l rep rest h => markerMatch_memfacts _ _ _ _ h) _ x c hc
  have h2 : ∀ x (c : Char), c ∈ subModifiers x → c ∈ x ∨ c ∈ [' ', '\n'] :=
    fun x c hc => sub_mem_chars _ [' ', '\n']
      (fun l rep rest h => markerMatch_memfacts _ _ _ _ h) _ x c hc
  have h3 : ∀ x (c : Char), c ∈ subDateParen x → c ∈ x ∨ c ∈ [' ', '\n'] :=
    fun x c hc => sub_mem_chars _ [' ', '\n']
      (fun l rep rest h => dateParenMatch_memfacts _ _ _ h) _ x c hc
  have h4 : ∀ x (c : Char), c ∈ subParaNum x → c ∈ x ∨ c ∈ [' ', '\n'] :=
    fun x c hc => sub_mem_chars _ [' ', '\n']
      (fun l rep rest h => paraNumMatch_memfacts _ _ _ h) _ x c hc
  have h5 : ∀ x (c : Char), c ∈ subSpaces x → c ∈ x ∨ c ∈ [' ', '\n'] :=
    fun x c hc => sub_mem_chars _ [' ', '\n']
      (fun l rep rest h => spaceMatch_memfacts _ _ _ h) _ x c hc
  have h6 : ∀ x (c : Char), c ∈ subBreaks x → c ∈ x ∨ c ∈ [' ', '\n'] :=
    fun x c hc => sub_mem_chars _ [' ', '\n']
      (fun l rep rest h => breakMatch_memfacts _ _ _ h) _ x c hc
  have h7 : ∀ x (c : Char), c ∈ subBlankParas x → c ∈ x ∨ c ∈ [' ', '\n'] :=
    fun x c hc => sub_mem_chars _ [' ', '\n']
      (fun l rep rest h => blankParaMatch_memfacts _ _ _ h) _ x c hc
  have hextra : c ∈ ([' ', '\n'] : List Char) → c ∉ superscriptDigits := by
    intro hx
    rcases List.mem_cons.mp hx with rfl | hx2
    · decide
    · simp only [List.mem_singleton] at hx2
      subst hx2
      decide
  unfold cleanTextL at hc
  have hc1 := pyStrip_subset _ _ hc
  rcases h7 _ _ hc1 with hc2 | hx
  on_goal 2 => exact hextra hx
  rcases h6 _ _ hc2 with hc3 | hx
  on_goal 2 => exact hextra hx
  rcases h5 _ _ hc3 with hc4 | hx
  on_goal 2 => exact hextra hx
  rcases h4 _ _ hc4 with hc5 | hx
  on_goal 2 => exact hextra hx
  have hc6 := rule5Go_subset hunLetterCI _ _ _ _ hc5
  rcases h3 _ _ hc6 with hc7 | hx
  on_goal 2 => exact hextra hx
  rcases h2 _ _ hc7 with hc8 | hx
  on_goal 2 => exact hextra hx
  rcases h1 _ _ hc8 with hc9 | hx
  on_goal 2 => exact hextra hx
  exact (foldl_filter_mem _ _ _ hc9).2

/-! ## Edge whitespace and second-pass identities -/

theorem pyStrip_noEdgeWS (l : List Char) : NoEdgeWS (pyStrip l) := by
  constructor
  · intro c hc
    unfold pyStrip at hc
    rw [List.head?_reverse] at hc
    have hzne : (l.dropWhile isPyWS).reverse.dropWhile isPyWS ≠ [] := by
      intro h
      rw [h] at hc
      cases hc
    have hy : (l.dropWhile isPyWS).head? = some c := by
      rw [← List.getLast?_reverse]
      conv_lhs =>
        rw [← List.takeWhile_append_dropWhile (p := isPyWS)
          (l := (l.dropWhile isPyWS).reverse)]
      rw [List.getLast?_append_of_ne_nil _ hzne]
      exact hc
    exact dropWhile_head_not hy
  · intro c hc
    unfold pyStrip at hc
    rw [List.getLast?_reverse] at hc
    exact dropWhile_head_not hc

theorem foldl_filter_id :
    ∀ (ds l : List Char), (∀ d ∈ ds, ∀ c ∈ l, c ≠ d) →
      ds.foldl (fun acc d => acc.filter (· ≠ d)) l = l := by
  intro ds
  induction ds with
  | nil => intro l _; rfl
  | cons d ds' ih =>
    intro l h
    rw [List.foldl_cons]
    have hf : l.filter (· ≠ d) = l := by
      rw [List.filter_eq_self]
      intro a ha
      simp only [ne_eq, decide_not, Bool.not_eq_eq_eq_not, Bool.not_true,
        decide_eq_false_iff_not]
      exact h d (List.mem_cons_self _ _) a ha
    rw [hf]
    exact ih l (fun e he c hc => h e (List.mem_cons_of_mem _ he) c hc)

theorem removeSuper_id {l : List Char} (h : NoSuper l) :
    removeSuperscriptDigits l = l := by
  unfold removeSuperscriptDigits
  exact foldl_filter_id _ _ (fun d hd c hc he => h c hc (he ▸ hd))

theorem subSpaces_id :
    ∀ (n : Nat) (l : List Char), l.length ≤ n → NoTwoSpaces l →
      sub spaceMatch n l = l := by
  intro n
  induction n with
  | zero =>
    intro l hn _
    have : l = [] := List.eq_nil_of_length_eq_zero (Nat.le_zero.mp hn)
    subst this
    rfl
  | succ n' ih =>
    intro l hn h
    cases l with
    | nil => rfl
    | cons c t =>
      rw [sub_cons]
      rcases hm : spaceMatch (c :: t) with _ | pr
      · rw [ih t (by simpa using hn) (noTwoSpaces_cons_of h)]
      · obtain ⟨r, hl, rfl⟩ := spaceMatch_eq_some hm
        rw [List.cons.injEq] at hl
        obtain ⟨rfl, rfl⟩ := hl
        have hhd : t.dropWhile (· = ' ') = t := by
          refine dropWhile_id_of_head ?_
          intro x hx
          simp only [decide_eq_true_eq, decide_eq_false_iff_not]
          intro hxe
          subst hxe
          cases t with
          | nil => cases hx
          | cons t0 t' =>
            simp only [List.head?_cons, Option.some.injEq] at hx
            subst hx
            exact h ⟨[], t', rfl⟩
        show ' ' :: sub spaceMatch n' (t.dropWhile (· = ' ')) = ' ' :: t
        rw [hhd, ih t (by simpa using hn) (noTwoSpaces_cons_of h)]

theorem subBreaks_id :
    ∀ (n : Nat) (l : List Char), l.length ≤ n → NoTriple l →
      sub breakMatch n l = l := by
  intro n
  induction n with
  | zero =>
    intro l hn _
    have : l = [] := List.eq_nil_of_length_eq_zero (Nat.le_zero.mp hn)
    subst this
    rfl
  | succ n' ih =>
    intro l hn h
    cases l with
    | nil => rfl
    | cons c t =>
      rw [sub_cons]
      rcases hm : breakMatch (c :: t) with _ | pr
      · rw [ih t (by simpa using hn) (noTriple_cons_of h)]
      · obtain ⟨r, hl, rfl⟩ := breakMatch_eq_some hm
        exact absurd ⟨[], r, hl⟩ h

theorem pyStrip_id {l : List Char} (h : NoEdgeWS l) : pyStrip l = l := by
  unfold pyStrip
  rw [dropWhile_id_of_head h.1]
  rw [dropWhile_id_of_head (fun c hc => h.2 c ((List.head?_reverse l) ▸ hc))]
  exact List.reverse_reverse l

/-! ## Claim C5: output invariants of the normalizer and second-pass
stability of rules 1, 7, 8, 10 -/

/-- C5 (amended): for every input, the normalizer's output contains no
superscript digit, no double space, no triple line-break, no
fully-blank paragraph and no edge whitespace; consequently a second
pass of rule 1 (superscripts), rule 7 (spaces), rule 8 (breaks) and
rule 10 (strip) leaves the output unchanged.  (Rule 4's outcome can
change on a second pass — see the counterexample — so it is not
included.) -/
theorem c5_amended (s : String) :
    NoSuper (cleanTextL s.data) ∧ NoTwoSpaces (cleanTextL s.data) ∧
    NoTriple (cleanTextL s.data) ∧ NoBlankSeg (cleanTextL s.data) ∧
    NoEdgeWS (cleanTextL s.data) ∧
    removeSuperscriptDigits (cleanTextL s.data) = cleanTextL s.data ∧
    subSpaces (cleanTextL s.data) = cleanTextL s.data ∧
    subBreaks (cleanTextL s.data) = cleanTextL s.data ∧
    pyStrip (cleanTextL s.data) = cleanTextL s.data := by
  have hx9 : cleanTextL s.data =
      pyStrip (subBlankParas (subBreaks (subSpaces (subParaNum (subWordNumbers
        (subDateParen (subModifiers (subLasd (removeSuperscriptDigits s.data))))))))) :=
    rfl
  generalize subParaNum (subWordNumbers
    (subDateParen (subModifiers (subLasd (removeSuperscriptDigits s.data))))) = x6 at hx9
  have hA : NoTwoSpaces (subSpaces x6) :=
    subSpaces_noTwoSpaces x6.length x6 le_rfl
  have hB : NoTwoSpaces (subBreaks (subSpaces x6)) :=
    subBreaks_pres_noTwoSpaces _ _ le_rfl hA
  have hC : NoTwoSpaces (subBlankParas (subBreaks (subSpaces x6))) :=
    subBlankParas_pres_noTwoSpaces _ _ le_rfl hB
  have hE : NoTriple (subBreaks (subSpaces x6)) :=
    subBreaks_noTriple _ _ le_rfl
  have hF : NoTriple (subBlankParas (subBreaks (subSpaces x6))) :=
    subBlankParas_pres_noTriple _ _ le_rfl hE
  have hH : NoBlankSeg (subBlankParas (subBreaks (subSpaces x6))) :=
    subBlankParas_noBlankSeg _ _ le_rfl
  obtain ⟨p, q, hdec, -, -⟩ :=
    pyStrip_decomp (subBlankParas (subBreaks (subSpaces x6)))
  have hD : NoTwoSpaces (pyStrip (subBlankParas (subBreaks (subSpaces x6)))) :=
    noTwoSpaces_infix (p := p) (q := q) (hdec ▸ hC)
  have hG : NoTriple (pyStrip (subBlankParas (subBreaks (subSpaces x6)))) :=
    noTriple_infix (p := p) (q := q) (hdec ▸ hF)
  have hI : NoBlankSeg (pyStrip (subBlankParas (subBreaks (subSpaces x6)))) :=
    noBlankSeg_infix (p := p) (q := q) (hdec ▸ hH)
  have hJ : NoEdgeWS (pyStrip (subBlankParas (subBreaks (subSpaces x6)))) :=
    pyStrip_noEdgeWS _
  have hK : NoSuper (cleanTextL s.data) := cleanTextL_noSuper s.data
  rw [hx9] at hK
  rw [hx9]
  refine ⟨hK, hD, hG, hI, hJ, removeSuper_id hK, ?_, ?_, pyStrip_id hJ⟩
  · exact subSpaces_id _ _ le_rfl hD
  · exact subBreaks_id _ _ le_rfl hG

/-! ## The document writer: paragraph count (claim C8) -/

theorem consHd_cons (c : Char) (s : List Char) (ss : List (List Char)) :
    consHd c (s :: ss) = (c :: s) :: ss := rfl

theorem splitNN_cons2 (n : Nat) (c c2 : Char) (r : List Char) :
    splitNN (n + 1) (c :: c2 :: r) =
      if c = '\n' && c2 = '\n' then [] :: splitNN n r
      else consHd c (splitNN n (c2 :: r)) := rfl

theorem splitNN_one (n : Nat) (c : Char) :
    splitNN (n + 1) [c] = consHd c (splitNN n []) := rfl

/-- Positional decomposition of the Python split: every emitted segment
sits in the input either as a prefix, or directly after a double break;
and it is followed by nothing or by a double break. -/
theorem splitNN_shape :
    ∀ (n : Nat) (l : List Char), ∃ s0 rest, splitNN n l = s0 :: rest ∧
      (∃ b, l = s0 ++ b ∧ (b = [] ∨ ∃ b2, b = '\n' :: '\n' :: b2)) ∧
      ∀ p ∈ rest, ∃ a b, l = a ++ '\n' :: '\n' :: (p ++ b) ∧
        (b = [] ∨ ∃ b2, b = '\n' :: '\n' :: b2) := by
  intro n
  induction n with
  | zero =>
    intro l
    exact ⟨l, [], rfl, ⟨[], by simp, Or.inl rfl⟩,
      fun p hp => absurd hp (List.not_mem_nil p)⟩
  | succ n ih =>
    intro l
    rcases l with _ | ⟨c, _ | ⟨c2, r⟩⟩
    · exact ⟨[], [], rfl, ⟨[], by simp, Or.inl rfl⟩,
        fun p hp => absurd hp (List.not_mem_nil p)⟩
    · obtain ⟨s0, rest, heq, ⟨b, hhd, -⟩, htl⟩ := ih []
      have hs0 : s0 = [] := by
        cases s0 with
        | nil => rfl
        | cons x xs => exact absurd hhd (by simp)
      subst hs0
      have hb : b = [] := by
        cases b with
        | nil => rfl
        | cons x xs => exact absurd hhd (by simp)
      subst hb
      refine ⟨[c], rest, ?_, ⟨[], by simp, Or.inl rfl⟩, ?_⟩
      · rw [splitNN_one, heq, consHd_cons]
      · intro p hp
        obtain ⟨a, b2, hd2, -⟩ := htl p hp
        exact absurd hd2.symm (by simp)
    · by_cases hsep : (c = '\n' && c2 = '\n') = true
      · have hsep' := hsep
        simp only [Bool.and_eq_true, decide_eq_true_eq] at hsep'
        obtain ⟨rfl, rfl⟩ := hsep'
        obtain ⟨s0, rest, heq, ⟨b, hhd, hbs⟩, htl⟩ := ih r
        refine ⟨[], splitNN n r, by rw [splitNN_cons2, if_pos hsep],
          ⟨'\n' :: '\n' :: r, rfl, Or.inr ⟨r, rfl⟩⟩, ?_⟩
        intro p hp
        rw [heq] at hp
        rcases List.mem_cons.mp hp with rfl | hpr
        · exact ⟨[], b, by rw [hhd]; simp, hbs⟩
        · obtain ⟨a, b2, hd2, hb2⟩ := htl p hpr
          exact ⟨'\n' :: '\n' :: a, b2, by rw [hd2]; simp, hb2⟩
      · obtain ⟨s0, rest, heq, ⟨b, hhd, hbs⟩, htl⟩ := ih (c2 :: r)
        refine ⟨c :: s0, rest, ?_, ⟨b, by rw [hhd]; simp, hbs⟩, ?_⟩
        · rw [splitNN_cons2, if_neg hsep, heq, consHd_cons]
        · intro p hp
          obtain ⟨a, b2, hd2, hb2⟩ := htl p hp
          exact ⟨c :: a, b2, by rw [hd2]; simp, hb2⟩

/-- On the cleaned text (no edge whitespace, no blank paragraph), every
non-empty split segment contains a non-whitespace character. -/
theorem clean_segment_nonws {text p : List Char} (hE : NoEdgeWS text)
    (hB : NoBlankSeg text) (hp : p ∈ splitNNL text) (hne : p ≠ []) :
    ∃ c ∈ p, isPyWS c = false := by
  by_contra hall
  have hws : ∀ c ∈ p, isPyWS c = true := by
    intro c hc
    cases hvc : isPyWS c with
    | false => exact absurd ⟨c, hc, hvc⟩ hall
    | true => rfl
  obtain ⟨s0, rest, heq, ⟨b, hhd, -⟩, htl⟩ := splitNN_shape text.length text
  unfold splitNNL at hp
  rw [heq] at hp
  rcases List.mem_cons.mp hp with rfl | hpr
  · obtain ⟨c, p', hp'⟩ := List.exists_cons_of_ne_nil hne
    have hh : text.head? = some c := by
      rw [hhd, hp']
      rfl
    have hcm : c ∈ p := by
      rw [hp']
      exact List.mem_cons_self _ _
    exact absurd ((hws c hcm).symm.trans (hE.1 c hh)) (by decide)
  · obtain ⟨a, b2, hdec, hb2⟩ := htl p hpr
    rcases hb2 with rfl | ⟨b', rfl⟩
    · have hpl : p.getLast? = some (p.getLast hne) := List.getLast?_eq_getLast p hne
      have hmem : p.getLast hne ∈ p := List.getLast_mem hne
      have hlast : text.getLast? = some (p.getLast hne) := by
        rw [hdec, List.getLast?_append_of_ne_nil _
          (by simp : ('\n' :: '\n' :: (p ++ ([] : List Char))) ≠ []),
          show ('\n' :: '\n' :: (p ++ ([] : List Char))) = ['\n', '\n'] ++ p from by simp,
          List.getLast?_append_of_ne_nil _ hne, hpl]
      exact absurd ((hws _ hmem).symm.trans (hE.2 _ hlast)) (by decide)
    · exact hB ⟨a, p, b', by rw [hdec]; simp, hws⟩

/-- A member on which the predicate is false survives `dropWhile`. -/
theorem mem_dropWhile_of {α : Type} (p : α → Bool) (l : List α) (c : α)
    (hc : c ∈ l) (hp : p c = false) : c ∈ l.dropWhile p := by
  have hsplit : c ∈ l.takeWhile p ++ l.dropWhile p := by
    rw [List.takeWhile_append_dropWhile]
    exact hc
  rcases List.mem_append.mp hsplit with h | h
  · exact absurd (List.mem_takeWhile_imp h) (by simp [hp])
  · exact h

/-- Rule 7 never deletes a non-space character. -/
theorem sub_space_keeps :
    ∀ (n : Nat) (l : List Char) (c : Char), c ∈ l → c ≠ ' ' →
      c ∈ sub spaceMatch n l := by
  intro n
  induction n with
  | zero => intro l c hc _; exact hc
  | succ n ih =>
    intro l c hc hcs
    cases l with
    | nil => exact absurd hc (List.not_mem_nil c)
    | cons d t =>
      rw [sub_cons]
      cases hm : spaceMatch (d :: t) with
      | none =>
        rcases List.mem_cons.mp hc with rfl | hct
        · exact List.mem_cons_self _ _
        · exact List.mem_cons_of_mem _ (ih t c hct hcs)
      | some pr =>
        obtain ⟨r, hl, hpr⟩ := spaceMatch_eq_some hm
        subst hpr
        have ht : t = r := (List.cons.injEq d t ' ' r).mp hl |>.2
        subst ht
        have hd : d = ' ' := (List.cons.injEq d t ' ' t).mp hl |>.1
        have hct : c ∈ t := by
          rcases List.mem_cons.mp hc with rfl | hct
          · exact absurd hd hcs
          · exact hct
        refine List.mem_append.mpr (Or.inr ?_)
        exact ih _ c (mem_dropWhile_of _ _ _ hct (by simp [hcs])) hcs

/-- A non-whitespace member survives `str.strip`. -/
theorem pyStrip_mem {l : List Char} {c : Char} (hc : c ∈ l)
    (hw : isPyWS c = false) : c ∈ pyStrip l := by
  unfold pyStrip
  rw [List.mem_reverse]
  apply mem_dropWhile_of _ _ _ _ hw
  rw [List.mem_reverse]
  exact mem_dropWhile_of _ _ _ hc hw

/-- A segment holding a non-whitespace character yields a non-empty
paragraph record. -/
theorem paraProcess_ne_nil {p : List Char} {c : Char} (hc : c ∈ p)
    (hw : isPyWS c = false) : paraProcess p ≠ [] := by
  have hnn : c ≠ '\n' := by
    intro h
    rw [h] at hw
    exact absurd hw (by decide)
  have hns : c ≠ ' ' := by
    intro h
    rw [h] at hw
    exact absurd hw (by decide)
  have h1 : c ∈ p.map (fun x => if x = '\n' then ' ' else x) :=
    List.mem_map.mpr ⟨c, hc, by rw [if_neg hnn]⟩
  have h2 : c ∈ subSpaces (p.map (fun x => if x = '\n' then ' ' else x)) :=
    sub_space_keeps _ _ c h1 hns
  exact List.ne_nil_of_mem (pyStrip_mem h2 hw)

/-- Filtering after a map has the same length as filtering the originals
when the predicates agree pointwise through the map. -/
theorem filter_map_length_congr {α β : Type} (f : α → β) (P : α → Bool)
    (Q : β → Bool) :
    ∀ (l : List α), (∀ x ∈ l, Q (f x) = P x) →
      ((l.map f).filter Q).length = (l.filter P).length := by
  intro l
  induction l with
  | nil => intro _; rfl
  | cons x xs ih =>
    intro h
    have hx := h x (List.mem_cons_self _ _)
    have ihx := ih (fun y hy => h y (List.mem_cons_of_mem _ hy))
    cases hP : P x <;> simp [List.filter_cons, hx, hP, ihx]

/-- C8: for every cleaned text handed to the document writer, the number
of paragraph records added to the output document equals the number of
non-empty segments of the split on double line-breaks. -/
theorem c8_paragraph_count (s : String) :
    (wordParagraphs (cleanTextL s.data)).length =
      ((splitNNL (cleanTextL s.data)).filter (fun p => !p.isEmpty)).length := by
  have hE : NoEdgeWS (cleanTextL s.data) := pyStrip_noEdgeWS _
  have hB : NoBlankSeg (cleanTextL s.data) := by
    have h9 : NoBlankSeg (subBlankParas (subBreaks (subSpaces (subParaNum
        (subWordNumbers (subDateParen (subModifiers (subLasd
          (removeSuperscriptDigits s.data))))))))) :=
      subBlankParas_noBlankSeg _ _ le_rfl
    obtain ⟨p, q, hdec, -, -⟩ := pyStrip_decomp (subBlankParas (subBreaks
      (subSpaces (subParaNum (subWordNumbers (subDateParen (subModifiers
        (subLasd (removeSuperscriptDigits s.data)))))))))
    exact noBlankSeg_infix (p := p) (q := q) (hdec ▸ h9)
  unfold wordParagraphs
  apply filter_map_length_congr
  intro p hp
  by_cases hne : p = []
  · subst hne
    rfl
  · obtain ⟨c, hc, hcw⟩ := clean_segment_nonws hE hB hp hne
    have h1 : paraProcess p ≠ [] := paraProcess_ne_nil hc hcw
    cases hq : paraProcess p with
    | nil => exact absurd hq h1
    | cons y ys =>
      cases p with
      | nil => exact absurd rfl hne
      | cons x xs => rfl
